import Mathlib

set_option maxRecDepth 100000

/-!
Verification of the `bf` compiler/executor (src/main.rs) against its
natural-language specification.

The source is shallowly embedded: the two executable pipelines (the
reference interpreter `run` and the closure chain built by `compile`) are
modelled as fuel-indexed evaluators over an explicit tape/input/output
state, the optimizer `raise_abstraction` as a pure function on instruction
trees, and the parser as an `Except`-valued scan.  Machine integers are
modelled as follows: the `i32` cursor and accumulators are `Int`; the
`usize` data pointer of `run` is `Nat`, and decrementing it at 0 (a panic
under the checked arithmetic the crate is built with) is failure; an
out-of-range `Vec` index is a panic, hence failure; cell arithmetic wraps
modulo 256, the policy the specification documents, and both execution
paths of the source perform identical cell operations.  `read_exact` on an
exhausted stdin panics, hence failure.  Fuel bounds the depth of loop
re-entry only; every claim about a terminating execution is stated up to
sufficient fuel.
-/

namespace BF

/-- Opcodes determined by the lexer (src/main.rs, enum OpCode). -/
inductive OpCode where
  | IncrementPointer
  | DecrementPointer
  | Increment
  | Decrement
  | Write
  | Read
  | LoopBegin
  | LoopEnd
deriving DecidableEq, Repr

/-- Parsed instruction tree (src/main.rs, enum Instruction). -/
inductive Instruction where
  | IncrementPointer
  | DecrementPointer
  | Increment
  | Decrement
  | Write
  | Read
  | Loop (body : List Instruction)
deriving Repr

/-- Coalesced instructions produced by the optimizer (src/main.rs, enum BigInsn). -/
inductive BigInsn where
  | Move (delta : Int)
  | Adj (delta : Int)
  | Write
  | Read
  | Loop (body : List BigInsn)
deriving Repr

/-- One character of the lexer's match (src/main.rs, fn lex). -/
def lexChar (symbol : Char) : Option OpCode :=
  match symbol with
  | '>' => some .IncrementPointer
  | '<' => some .DecrementPointer
  | '+' => some .Increment
  | '-' => some .Decrement
  | '.' => some .Write
  | ',' => some .Read
  | '[' => some .LoopBegin
  | ']' => some .LoopEnd
  | _ => none

/-- The lexer's loop over the source characters: recognized symbols are
pushed, everything else is a comment (src/main.rs, fn lex). -/
def lexList (source : List Char) : List OpCode :=
  match source with
  | [] => []
  | c :: rest =>
    match lexChar c with
    | some op => op :: lexList rest
    | none => lexList rest

/-- src/main.rs, fn lex, on the source text. -/
def lex (source : String) : List OpCode :=
  lexList source.data

/-- The two panics of the parser (src/main.rs, fn parse): a loop ending with
no beginning at opcode index `pos`, and a loop starting at opcode index
`pos` with no ending.  A panic aborts parsing, so no partial program exists
alongside an error. -/
inductive ParseErr where
  | UnmatchedLoopEnd (pos : Nat)
  | UnmatchedLoopBegin (pos : Nat)
deriving DecidableEq, Repr

/-- The indexed scan of src/main.rs, fn parse: `i` is the loop variable of
`for (i, op) in opcodes.iter().enumerate()`, `loop_stack` the bracket
depth, `loop_start` the index of the most recent depth-0 `[`.  When a `]`
returns the depth to 0 the captured slice `opcodes[loop_start + 1..i]` is
parsed recursively.  The two panics become errors. -/
def parseGo (opcodes : List OpCode) (i : Nat) (program : List Instruction)
    (loop_stack loop_start : Nat) : Except ParseErr (List Instruction) :=
  if h : i < opcodes.length then
    if loop_stack = 0 then
      match opcodes[i] with
      | .IncrementPointer => parseGo opcodes (i + 1) (program ++ [.IncrementPointer]) loop_stack loop_start
      | .DecrementPointer => parseGo opcodes (i + 1) (program ++ [.DecrementPointer]) loop_stack loop_start
      | .Increment => parseGo opcodes (i + 1) (program ++ [.Increment]) loop_stack loop_start
      | .Decrement => parseGo opcodes (i + 1) (program ++ [.Decrement]) loop_stack loop_start
      | .Write => parseGo opcodes (i + 1) (program ++ [.Write]) loop_stack loop_start
      | .Read => parseGo opcodes (i + 1) (program ++ [.Read]) loop_stack loop_start
      | .LoopBegin => parseGo opcodes (i + 1) program 1 i
      | .LoopEnd => .error (.UnmatchedLoopEnd i)
    else
      match opcodes[i] with
      | .LoopBegin => parseGo opcodes (i + 1) program (loop_stack + 1) loop_start
      | .LoopEnd =>
          if loop_stack = 1 then
            match parseGo ((opcodes.drop (loop_start + 1)).take (i - (loop_start + 1))) 0 [] 0 0 with
            | .error e => .error e
            | .ok body => parseGo opcodes (i + 1) (program ++ [.Loop body]) 0 loop_start
          else
            parseGo opcodes (i + 1) program (loop_stack - 1) loop_start
      | _ => parseGo opcodes (i + 1) program loop_stack loop_start
  else
    if loop_stack = 0 then .ok program else .error (.UnmatchedLoopBegin loop_start)
termination_by (opcodes.length, opcodes.length - i)
decreasing_by
  all_goals first
    | (apply Prod.Lex.right; omega)
    | (apply Prod.Lex.left; simp only [List.length_take, List.length_drop]; omega)

/-- src/main.rs, fn parse. -/
def parse (opcodes : List OpCode) : Except ParseErr (List Instruction) :=
  parseGo opcodes 0 [] 0 0

/-- The tape, the remaining stdin bytes and the emitted stdout bytes. -/
structure S where
  tape : List Nat
  inp : List Nat
  out : List Nat
deriving DecidableEq, Repr

/-- Cell update: unsigned 8-bit arithmetic wrapping modulo 256 (the policy
the specification documents for Adjust; both pipelines of the source apply
identical single-cell operations). -/
def adjByte (v : Nat) (d : Int) : Nat :=
  (((v : Int) + d) % 256).toNat

/-- Read the cell under a `usize` index; out of range is a panic. -/
def getCellN (s : S) (q : Nat) : Option Nat :=
  s.tape[q]?

/-- Write the cell under a `usize` index (callers establish the bound). -/
def setCellN (s : S) (q : Nat) (v : Nat) : S :=
  { s with tape := s.tape.set q v }

/-- Read the cell under an `i32` cursor cast `as usize`; a negative or
out-of-range index is a panic. -/
def getCellI (s : S) (p : Int) : Option Nat :=
  if 0 ≤ p then s.tape[p.toNat]? else none

/-- Write the cell under an `i32` cursor (callers establish the bound). -/
def setCellI (s : S) (p : Int) (v : Nat) : S :=
  { s with tape := s.tape.set p.toNat v }

/-- Reference interpreter (src/main.rs, fn run).  Fuel bounds loop
re-entry: a `Loop` whose cell is non-zero runs its body and then the loop
again, exactly the `while` of the source.  Decrementing the `usize` data
pointer at 0 panics; every `tape[...]` access is bounds checked; `Read` on
exhausted input panics. -/
def run : Nat → List Instruction → S → Nat → Option (S × Nat)
  | 0, _, _, _ => none
  | _ + 1, [], s, dp => some (s, dp)
  | fuel + 1, .IncrementPointer :: rest, s, dp => run fuel rest s (dp + 1)
  | fuel + 1, .DecrementPointer :: rest, s, dp =>
      if dp = 0 then none else run fuel rest s (dp - 1)
  | fuel + 1, .Increment :: rest, s, dp =>
      (getCellN s dp).bind fun v => run fuel rest (setCellN s dp (adjByte v 1)) dp
  | fuel + 1, .Decrement :: rest, s, dp =>
      (getCellN s dp).bind fun v => run fuel rest (setCellN s dp (adjByte v (-1))) dp
  | fuel + 1, .Write :: rest, s, dp =>
      (getCellN s dp).bind fun v => run fuel rest { s with out := s.out ++ [v] } dp
  | fuel + 1, .Read :: rest, s, dp =>
      match s.inp with
      | [] => none
      | b :: bs =>
          (getCellN s dp).bind fun _ =>
            run fuel rest (setCellN { s with inp := bs } dp b) dp
  | fuel + 1, .Loop body :: rest, s, dp =>
      (getCellN s dp).bind fun v =>
        if v = 0 then run fuel rest s dp
        else (run fuel body s dp).bind fun r => run fuel (.Loop body :: rest) r.1 r.2

/-- The loop-to-zero shape test of src/main.rs, fn compile:
`nested_instructions.len() == 1 && nested_instructions[0] == Instruction::Decrement`. -/
def isDecBody : List Instruction → Bool
  | [.Decrement] => true
  | _ => false

/-- Denotational semantics of the closure chain built by src/main.rs, fn
compile: `compile fuel instructions delta_p s p` is the result of invoking
the chain compiled from `instructions` with pending displacement `delta_p`
on tape-state `s` and cursor `p`.  Pointer moves fold into `delta_p`; every
tape-touching node first applies the pending displacement; the loop whose
body is exactly a single `Decrement` is compiled to a store of 0. -/
def compile : Nat → List Instruction → Int → S → Int → Option (S × Int)
  | 0, _, _, _, _ => none
  | _ + 1, [], delta_p, s, p => some (s, p + delta_p)
  | fuel + 1, .IncrementPointer :: rest, delta_p, s, p => compile fuel rest (delta_p + 1) s p
  | fuel + 1, .DecrementPointer :: rest, delta_p, s, p => compile fuel rest (delta_p - 1) s p
  | fuel + 1, .Increment :: rest, delta_p, s, p =>
      (getCellI s (p + delta_p)).bind fun v =>
        compile fuel rest 0 (setCellI s (p + delta_p) (adjByte v 1)) (p + delta_p)
  | fuel + 1, .Decrement :: rest, delta_p, s, p =>
      (getCellI s (p + delta_p)).bind fun v =>
        compile fuel rest 0 (setCellI s (p + delta_p) (adjByte v (-1))) (p + delta_p)
  | fuel + 1, .Write :: rest, delta_p, s, p =>
      (getCellI s (p + delta_p)).bind fun v =>
        compile fuel rest 0 { s with out := s.out ++ [v] } (p + delta_p)
  | fuel + 1, .Read :: rest, delta_p, s, p =>
      match s.inp with
      | [] => none
      | b :: bs =>
          (getCellI s (p + delta_p)).bind fun _ =>
            compile fuel rest 0 (setCellI { s with inp := bs } (p + delta_p) b) (p + delta_p)
  | fuel + 1, .Loop body :: rest, delta_p, s, p =>
      if isDecBody body then
        (getCellI s (p + delta_p)).bind fun _ =>
          compile fuel rest 0 (setCellI s (p + delta_p) 0) (p + delta_p)
      else
        (getCellI s (p + delta_p)).bind fun v =>
          if v = 0 then compile fuel rest 0 s (p + delta_p)
          else (compile fuel body 0 s (p + delta_p)).bind fun r =>
            compile fuel (.Loop body :: rest) 0 r.1 r.2

/-- Modelled from the spec: the repository never executes a `BigInsn`
program (`main` only debug-prints `raise_abstraction`'s output), so the
Move/Adjust/Write/Read/Loop effect semantics of spec §4.4 is modelled
here.  Move folds its delta into the cursor without touching the tape;
Adjust, Write and Read act at the cursor under a bounds check, Adjust
wrapping modulo 256; Loop iterates its body while the cell at the cursor
is non-zero. -/
def bigRun : Nat → List BigInsn → S → Int → Option (S × Int)
  | 0, _, _, _ => none
  | _ + 1, [], s, p => some (s, p)
  | fuel + 1, .Move d :: rest, s, p => bigRun fuel rest s (p + d)
  | fuel + 1, .Adj d :: rest, s, p =>
      (getCellI s p).bind fun v => bigRun fuel rest (setCellI s p (adjByte v d)) p
  | fuel + 1, .Write :: rest, s, p =>
      (getCellI s p).bind fun v => bigRun fuel rest { s with out := s.out ++ [v] } p
  | fuel + 1, .Read :: rest, s, p =>
      match s.inp with
      | [] => none
      | b :: bs =>
          (getCellI s p).bind fun _ => bigRun fuel rest (setCellI { s with inp := bs } p b) p
  | fuel + 1, .Loop body :: rest, s, p =>
      (getCellI s p).bind fun v =>
        if v = 0 then bigRun fuel rest s p
        else (bigRun fuel body s p).bind fun r => bigRun fuel (.Loop body :: rest) r.1 r.2

/-- src/main.rs, fn emit: push a Move for a non-zero pending `deltap`, then
an Adj for a non-zero pending `delta`, and zero both accumulators. -/
def emit (bigcode : List BigInsn) (deltap delta : Int) : List BigInsn × Int × Int :=
  let c1 := if deltap ≠ 0 then bigcode ++ [.Move deltap] else bigcode
  let c2 := if delta ≠ 0 then c1 ++ [.Adj delta] else c1
  (c2, 0, 0)

/-- src/main.rs, fn maybe_emit: flush (via emit, hence both accumulators)
only when the pending `delta` is non-zero. -/
def maybe_emit (bigcode : List BigInsn) (deltap delta : Int) : List BigInsn × Int × Int :=
  if delta ≠ 0 then emit bigcode deltap delta else (bigcode, deltap, delta)

/-- The for-loop of src/main.rs, fn raise_abstraction, threading the emitted
code and the accumulators `deltap`, `delta`.  The recursive
`raise_abstraction(body)` of the Loop arm is inlined (`raiseGo body [] 0 0`
followed by the trailing flush), and the two `assert_eq!`s after pushing a
Loop node are modelled as a check that fails to `none` where the source
would panic. -/
def raiseGo : List Instruction → List BigInsn → Int → Int → Option (List BigInsn × Int × Int)
  | [], bigcode, deltap, delta => some (bigcode, deltap, delta)
  | .IncrementPointer :: rest, bigcode, deltap, delta =>
      match maybe_emit bigcode deltap delta with
      | (c, dp, d) => raiseGo rest c (dp + 1) d
  | .DecrementPointer :: rest, bigcode, deltap, delta =>
      match maybe_emit bigcode deltap delta with
      | (c, dp, d) => raiseGo rest c (dp - 1) d
  | .Increment :: rest, bigcode, deltap, delta => raiseGo rest bigcode deltap (delta + 1)
  | .Decrement :: rest, bigcode, deltap, delta => raiseGo rest bigcode deltap (delta - 1)
  | .Write :: rest, bigcode, deltap, delta =>
      match emit bigcode deltap delta with
      | (c, dp, d) => raiseGo rest (c ++ [.Write]) dp d
  | .Read :: rest, bigcode, deltap, delta =>
      match emit bigcode deltap delta with
      | (c, dp, d) => raiseGo rest (c ++ [.Read]) dp d
  | .Loop body :: rest, bigcode, deltap, delta =>
      match emit bigcode deltap delta with
      | (c, dp, d) =>
          match raiseGo body [] 0 0 with
          | none => none
          | some (bc, bdp, bd) =>
              if dp = 0 ∧ d = 0 then
                raiseGo rest (c ++ [.Loop (emit bc bdp bd).1]) dp d
              else none

/-- src/main.rs, fn raise_abstraction: scan with both accumulators starting
at zero, then flush once more at the end. -/
def raise_abstraction (instructions : List Instruction) : Option (List BigInsn) :=
  (raiseGo instructions [] 0 0).map fun r => (emit r.1 r.2.1 r.2.2).1

/-- The tape src/main.rs, fn main allocates: 1024 zeroed byte cells. -/
def main_tape : List Nat :=
  List.replicate 1024 0

/-- The initial data pointer src/main.rs, fn main picks. -/
def main_pointer : Nat := 512

/-- The execution path of src/main.rs, fn main: lex the source, parse the
opcodes, and invoke the chain compiled with initial displacement 0 once on
the 1024-cell zero tape with the cursor at 512.  `inp` is the stdin byte
stream, `fuel` bounds loop re-entry, and the result is the emitted output
byte sequence. -/
def main_run (source : String) (inp : List Nat) (fuel : Nat) : Option (List Nat) :=
  match parse (lex source) with
  | .error _ => none
  | .ok program =>
      (compile fuel program 0 ⟨main_tape, inp, []⟩ (main_pointer : Int)).map fun r => r.1.out

/-- The nodes a single `emit` call appends: a Move for a non-zero pending
`deltap` first, then an Adj for a non-zero pending `delta`. -/
def emitNodes (deltap delta : Int) : List BigInsn :=
  (if deltap ≠ 0 then [BigInsn.Move deltap] else []) ++
    (if delta ≠ 0 then [BigInsn.Adj delta] else [])

/-- Net cursor displacement of an instruction run (+1 per MoveRight, -1
per MoveLeft). -/
def netMove : List Instruction → Int
  | [] => 0
  | .IncrementPointer :: rest => netMove rest + 1
  | .DecrementPointer :: rest => netMove rest - 1
  | _ :: rest => netMove rest

/-- Net cell delta of an instruction run (+1 per Increment, -1 per
Decrement). -/
def netAdj : List Instruction → Int
  | [] => 0
  | .Increment :: rest => netAdj rest + 1
  | .Decrement :: rest => netAdj rest - 1
  | _ :: rest => netAdj rest

/-- Cursor-move instructions. -/
def isMove : Instruction → Bool
  | .IncrementPointer => true
  | .DecrementPointer => true
  | _ => false

/-- Cell-adjust instructions. -/
def isAdj : Instruction → Bool
  | .Increment => true
  | .Decrement => true
  | _ => false

/-- Apply a pending cell delta `d` at index `q`: the state the reference
run has reached when the optimized run still holds `d` in its
`pending_adjust` accumulator.  `d = 0` is the identity; the out-of-range
branch is unreachable under the simulation invariant. -/
def applyAdj (s : S) (q : Nat) (d : Int) : S :=
  if d = 0 then s
  else
    match s.tape[q]? with
    | some v => setCellN s q (adjByte v d)
    | none => s

/-- Well-formedness of a machine state: every tape cell and every pending
input byte is an 8-bit value (true of every state the Rust program can
hold, where cells are `u8` and stdin yields bytes). -/
def BytesS (s : S) : Prop :=
  (∀ v ∈ s.tape, v < 256) ∧ (∀ v ∈ s.inp, v < 256)

/-- The general (non-special-cased) loop strategy of the code generator,
as its own evaluator: test the cell at the cursor, and while it is
non-zero invoke the compiled body (with zero initial displacement) and use
its returned cursor as the next test cursor.  Also returns the fuel left
for the continuation, so that the general strategy composes with the rest
of the chain. -/
def genIter : Nat → List Instruction → S → Int → Option (S × Int × Nat)
  | 0, _, _, _ => none
  | fuel + 1, body, s, p =>
      (getCellI s p).bind fun v =>
        if v = 0 then some (s, p, fuel)
        else (compile fuel body 0 s p).bind fun r => genIter fuel body r.1 r.2

/-- The error component of a parse outcome. -/
def errOf : Except ParseErr (List Instruction) → Option ParseErr
  | .error e => some e
  | .ok _ => none

/-- Depth scan of an opcode list from a given bracket depth: `none` when a
`loop-end` occurs at depth 0, otherwise the final depth.  `scans ops 0 =
some 0` is the usual notion of balanced brackets. -/
def scans : List OpCode → Nat → Option Nat
  | [], d => some d
  | .LoopBegin :: rest, d => scans rest (d + 1)
  | .LoopEnd :: rest, d => if d = 0 then none else scans rest (d - 1)
  | _ :: rest, d => scans rest d

/-- The error discipline the specification describes, as a plain scan over
the opcode list: a `loop-end` at depth 0 is an unmatched-closing error at
that opcode's position; running out of opcodes at positive depth is an
unmatched-opening error at the start position of the outermost unclosed
loop (the most recent depth-0 `loop-begin`).  This is the spec side of
claim C3, to be compared with `parse`. -/
def specBracketCheck (ops : List OpCode) (i loop_stack loop_start : Nat) : Option ParseErr :=
  if h : i < ops.length then
    match ops[i] with
    | .LoopBegin => specBracketCheck ops (i + 1) (loop_stack + 1) (if loop_stack = 0 then i else loop_start)
    | .LoopEnd =>
        if loop_stack = 0 then some (.UnmatchedLoopEnd i)
        else specBracketCheck ops (i + 1) (loop_stack - 1) loop_start
    | _ => specBracketCheck ops (i + 1) loop_stack loop_start
  else
    if loop_stack = 0 then none else some (.UnmatchedLoopBegin loop_start)
termination_by ops.length - i

/-! ### Basic facts about the state operations -/

theorem getCellI_natCast (s : S) (q : Nat) : getCellI s (q : Int) = getCellN s q := by
  simp [getCellI, getCellN]

theorem setCellI_natCast (s : S) (q v : Nat) : setCellI s (q : Int) v = setCellN s q v := by
  simp [setCellI, setCellN]

theorem getCellN_lt {s : S} {q v : Nat} (h : getCellN s q = some v) :
    q < s.tape.length := by
  simp only [getCellN] at h
  exact (List.getElem?_eq_some.mp h).1

theorem getCellN_of_lt {s : S} {q : Nat} (h : q < s.tape.length) :
    ∃ v, getCellN s q = some v := by
  exact ⟨s.tape[q], by simp [getCellN, List.getElem?_eq_some, h]⟩

theorem set_self {l : List Nat} : ∀ {q v : Nat}, l[q]? = some v → l.set q v = l := by
  induction l with
  | nil => intro q v h; simp at h
  | cons a t ih =>
    intro q v h
    cases q with
    | zero => simp_all
    | succ q => simp_all

theorem setCellN_self {s : S} {q v : Nat} (h : getCellN s q = some v) :
    setCellN s q v = s := by
  simp only [getCellN] at h
  simp [setCellN, set_self h]

theorem setCellN_tape_length (s : S) (q v : Nat) :
    (setCellN s q v).tape.length = s.tape.length := by
  simp [setCellN]

theorem setCellN_setCellN (s : S) (q v w : Nat) :
    setCellN (setCellN s q v) q w = setCellN s q w := by
  simp [setCellN]

theorem adjByte_adjByte (v : Nat) (d1 d2 : Int) :
    adjByte (adjByte v d1) d2 = adjByte v (d1 + d2) := by
  unfold adjByte
  omega

/-! ### Completed runs are stable under more fuel -/

theorem run_mono {f : Nat} :
    ∀ {g : Nat}, f ≤ g → ∀ {l : List Instruction} {s : S} {dp : Nat} {r : S × Nat},
      run f l s dp = some r → run g l s dp = some r := by
  induction f with
  | zero => intro g _ l s dp r h; simp [run] at h
  | succ f ih =>
    intro g hg l s dp r h
    obtain ⟨g, rfl⟩ : ∃ g', g = g' + 1 := ⟨g - 1, by omega⟩
    have hg' : f ≤ g := by omega
    cases l with
    | nil => simpa [run] using h
    | cons i rest =>
      cases i with
      | IncrementPointer => exact ih hg' h
      | DecrementPointer =>
          simp only [run] at h ⊢
          split at h
          · exact absurd h (by simp)
          · rename_i hdp
            rw [if_neg hdp]
            exact ih hg' h
      | Increment =>
          simp only [run] at h ⊢
          cases hv : getCellN s dp with
          | none => simp [hv] at h
          | some v => simp only [hv, Option.some_bind] at h ⊢; exact ih hg' h
      | Decrement =>
          simp only [run] at h ⊢
          cases hv : getCellN s dp with
          | none => simp [hv] at h
          | some v => simp only [hv, Option.some_bind] at h ⊢; exact ih hg' h
      | Write =>
          simp only [run] at h ⊢
          cases hv : getCellN s dp with
          | none => simp [hv] at h
          | some v => simp only [hv, Option.some_bind] at h ⊢; exact ih hg' h
      | Read =>
          cases hi : s.inp with
          | nil => simp [run, hi] at h
          | cons b bs =>
              simp only [run, hi] at h ⊢
              cases hv : getCellN s dp with
              | none => simp [hv] at h
              | some v => simp only [hv, Option.some_bind] at h ⊢; exact ih hg' h
      | Loop body =>
          simp only [run] at h ⊢
          cases hv : getCellN s dp with
          | none => simp [hv] at h
          | some v =>
              simp only [hv, Option.some_bind] at h ⊢
              by_cases h0 : v = 0
              · subst h0
                rw [if_pos rfl] at h
                rw [if_pos rfl]
                exact ih hg' h
              · rw [if_neg h0] at h
                rw [if_neg h0]
                cases hb : run f body s dp with
                | none => simp [hb] at h
                | some r1 =>
                    simp only [hb, Option.some_bind] at h
                    simp only [ih hg' hb, Option.some_bind]
                    exact ih hg' h

theorem compile_mono {f : Nat} :
    ∀ {g : Nat}, f ≤ g → ∀ {l : List Instruction} {delta_p : Int} {s : S} {p : Int} {r : S × Int},
      compile f l delta_p s p = some r → compile g l delta_p s p = some r := by
  induction f with
  | zero => intro g _ l delta_p s p r h; simp [compile] at h
  | succ f ih =>
    intro g hg l delta_p s p r h
    obtain ⟨g, rfl⟩ : ∃ g', g = g' + 1 := ⟨g - 1, by omega⟩
    have hg' : f ≤ g := by omega
    cases l with
    | nil => simpa [compile] using h
    | cons i rest =>
      cases i with
      | IncrementPointer => exact ih hg' h
      | DecrementPointer => exact ih hg' h
      | Increment =>
          simp only [compile] at h ⊢
          cases hv : getCellI s (p + delta_p) with
          | none => simp [hv] at h
          | some v => simp only [hv, Option.some_bind] at h ⊢; exact ih hg' h
      | Decrement =>
          simp only [compile] at h ⊢
          cases hv : getCellI s (p + delta_p) with
          | none => simp [hv] at h
          | some v => simp only [hv, Option.some_bind] at h ⊢; exact ih hg' h
      | Write =>
          simp only [compile] at h ⊢
          cases hv : getCellI s (p + delta_p) with
          | none => simp [hv] at h
          | some v => simp only [hv, Option.some_bind] at h ⊢; exact ih hg' h
      | Read =>
          cases hi : s.inp with
          | nil => simp [compile, hi] at h
          | cons b bs =>
              simp only [compile, hi] at h ⊢
              cases hv : getCellI s (p + delta_p) with
              | none => simp [hv] at h
              | some v => simp only [hv, Option.some_bind] at h ⊢; exact ih hg' h
      | Loop body =>
          simp only [compile] at h ⊢
          by_cases hd : isDecBody body
          · rw [if_pos hd] at h
            rw [if_pos hd]
            cases hv : getCellI s (p + delta_p) with
            | none => simp [hv] at h
            | some v => simp only [hv, Option.some_bind] at h ⊢; exact ih hg' h
          · rw [if_neg hd] at h
            rw [if_neg hd]
            cases hv : getCellI s (p + delta_p) with
            | none => simp [hv] at h
            | some v =>
                simp only [hv, Option.some_bind] at h ⊢
                by_cases h0 : v = 0
                · subst h0
                  rw [if_pos rfl] at h
                  rw [if_pos rfl]
                  exact ih hg' h
                · rw [if_neg h0] at h
                  rw [if_neg h0]
                  cases hb : compile f body 0 s (p + delta_p) with
                  | none => simp [hb] at h
                  | some r1 =>
                      simp only [hb, Option.some_bind] at h
                      simp only [ih hg' hb, Option.some_bind]
                      exact ih hg' h

theorem bigRun_mono {f : Nat} :
    ∀ {g : Nat}, f ≤ g → ∀ {l : List BigInsn} {s : S} {p : Int} {r : S × Int},
      bigRun f l s p = some r → bigRun g l s p = some r := by
  induction f with
  | zero => intro g _ l s p r h; simp [bigRun] at h
  | succ f ih =>
    intro g hg l s p r h
    obtain ⟨g, rfl⟩ : ∃ g', g = g' + 1 := ⟨g - 1, by omega⟩
    have hg' : f ≤ g := by omega
    cases l with
    | nil => simpa [bigRun] using h
    | cons i rest =>
      cases i with
      | Move d => exact ih hg' h
      | Adj d =>
          simp only [bigRun] at h ⊢
          cases hv : getCellI s p with
          | none => simp [hv] at h
          | some v => simp only [hv, Option.some_bind] at h ⊢; exact ih hg' h
      | Write =>
          simp only [bigRun] at h ⊢
          cases hv : getCellI s p with
          | none => simp [hv] at h
          | some v => simp only [hv, Option.some_bind] at h ⊢; exact ih hg' h
      | Read =>
          cases hi : s.inp with
          | nil => simp [bigRun, hi] at h
          | cons b bs =>
              simp only [bigRun, hi] at h ⊢
              cases hv : getCellI s p with
              | none => simp [hv] at h
              | some v => simp only [hv, Option.some_bind] at h ⊢; exact ih hg' h
      | Loop body =>
          simp only [bigRun] at h ⊢
          cases hv : getCellI s p with
          | none => simp [hv] at h
          | some v =>
              simp only [hv, Option.some_bind] at h ⊢
              by_cases h0 : v = 0
              · subst h0
                rw [if_pos rfl] at h
                rw [if_pos rfl]
                exact ih hg' h
              · rw [if_neg h0] at h
                rw [if_neg h0]
                cases hb : bigRun f body s p with
                | none => simp [hb] at h
                | some r1 =>
                    simp only [hb, Option.some_bind] at h
                    simp only [ih hg' hb, Option.some_bind]
                    exact ih hg' h

/-! ### The loop-to-zero idiom under the reference interpreter -/

theorem isDecBody_iff {body : List Instruction} :
    isDecBody body = true ↔ body = [.Decrement] := by
  cases body with
  | nil => simp [isDecBody]
  | cons a t => cases a <;> cases t <;> simp [isDecBody]

theorem run_dec_single {f : Nat} {s : S} {dp : Nat} {r : S × Nat}
    (h : run f [.Decrement] s dp = some r) :
    ∃ v, getCellN s dp = some v ∧ r = (setCellN s dp (adjByte v (-1)), dp) := by
  match f with
  | 0 => simp [run] at h
  | f + 1 =>
    simp only [run] at h
    cases hv : getCellN s dp with
    | none => simp [hv] at h
    | some v =>
      simp only [hv, Option.some_bind] at h
      match f with
      | 0 => simp [run] at h
      | f + 1 =>
        simp only [run] at h
        exact ⟨v, rfl, (Option.some_inj.mp h).symm⟩

/-- A terminating `[-]` loop under the reference interpreter zeroes the
cell at the (in-range) data pointer and moves on to `rest` with strictly
less fuel. -/
theorem run_decLoop_drain {f : Nat} :
    ∀ {s : S} {dp : Nat} {rest : List Instruction} {r : S × Nat},
      run f (.Loop [.Decrement] :: rest) s dp = some r →
      ∃ g, g < f ∧ dp < s.tape.length ∧ run g rest (setCellN s dp 0) dp = some r := by
  induction f with
  | zero => intro s dp rest r h; simp [run] at h
  | succ f ih =>
    intro s dp rest r h
    simp only [run] at h
    cases hv : getCellN s dp with
    | none => simp [hv] at h
    | some v =>
      simp only [hv, Option.some_bind] at h
      by_cases h0 : v = 0
      · subst h0
        rw [if_pos rfl] at h
        exact ⟨f, by omega, getCellN_lt hv, by rwa [setCellN_self hv]⟩
      · rw [if_neg h0] at h
        cases hb : run f [.Decrement] s dp with
        | none => simp [hb] at h
        | some r1 =>
            simp only [hb, Option.some_bind] at h
            obtain ⟨w, hw, rfl⟩ := run_dec_single hb
            obtain ⟨g, hgf, hlen, hrest⟩ := ih h
            refine ⟨g, by omega, ?_, ?_⟩
            · simpa [setCellN_tape_length] using hlen
            · rwa [setCellN_setCellN] at hrest

/-! ### C1: the compiled chain simulates the reference interpreter -/

/-- Core simulation: a reference-interpreter run that completes is
reproduced by the compiled chain, with the pending displacement `delta_p`
folded into the cursor (`p + delta_p` is the interpreter's pointer). -/
theorem compile_simulates_run {f : Nat} :
    ∀ {l : List Instruction} {s : S} {dp : Nat} {delta_p p : Int} {s' : S} {dp' : Nat},
      p + delta_p = (dp : Int) →
      run f l s dp = some (s', dp') →
      compile f l delta_p s p = some (s', (dp' : Int)) := by
  induction f using Nat.strong_induction_on with
  | _ f IH =>
    match f with
    | 0 => intro l s dp delta_p p s' dp' hp h; simp [run] at h
    | f + 1 =>
      intro l s dp delta_p p s' dp' hp h
      have IHf : ∀ {l : List Instruction} {s : S} {dp : Nat} {delta_p p : Int} {s' : S}
          {dp' : Nat}, p + delta_p = (dp : Int) → run f l s dp = some (s', dp') →
          compile f l delta_p s p = some (s', (dp' : Int)) := IH f (by omega)
      cases l with
      | nil =>
          simp only [run, Option.some_inj, Prod.mk.injEq] at h
          obtain ⟨rfl, rfl⟩ := h
          simp [compile, hp]
      | cons i rest =>
        cases i with
        | IncrementPointer =>
            simp only [run] at h
            simp only [compile]
            exact IHf (by push_cast; omega) h
        | DecrementPointer =>
            simp only [run] at h
            split at h
            · exact absurd h (by simp)
            · rename_i hdp
              simp only [compile]
              exact IHf (by omega) h
        | Increment =>
            simp only [run] at h
            cases hv : getCellN s dp with
            | none => simp [hv] at h
            | some v =>
                simp only [hv, Option.some_bind] at h
                simp only [compile, hp, getCellI_natCast, hv, Option.some_bind,
                  setCellI_natCast]
                exact IHf (by omega) h
        | Decrement =>
            simp only [run] at h
            cases hv : getCellN s dp with
            | none => simp [hv] at h
            | some v =>
                simp only [hv, Option.some_bind] at h
                simp only [compile, hp, getCellI_natCast, hv, Option.some_bind,
                  setCellI_natCast]
                exact IHf (by omega) h
        | Write =>
            simp only [run] at h
            cases hv : getCellN s dp with
            | none => simp [hv] at h
            | some v =>
                simp only [hv, Option.some_bind] at h
                simp only [compile, hp, getCellI_natCast, hv, Option.some_bind]
                exact IHf (by omega) h
        | Read =>
            cases hi : s.inp with
            | nil => simp [run, hi] at h
            | cons b bs =>
                simp only [run, hi] at h
                cases hv : getCellN s dp with
                | none => simp [hv] at h
                | some v =>
                    simp only [hv, Option.some_bind] at h
                    simp only [compile, hi, hp, getCellI_natCast, hv, Option.some_bind,
                      setCellI_natCast]
                    exact IHf (by omega) h
        | Loop body =>
            by_cases hd : isDecBody body = true
            · obtain rfl := isDecBody_iff.mp hd
              obtain ⟨g, hgf, hlen, hrest⟩ := run_decLoop_drain h
              obtain ⟨v, hv⟩ := getCellN_of_lt hlen
              simp only [compile]
              rw [if_pos hd]
              simp only [hp, getCellI_natCast, hv, Option.some_bind, setCellI_natCast]
              exact compile_mono (by omega) (IH g (by omega) (by omega) hrest)
            · simp only [run] at h
              cases hv : getCellN s dp with
              | none => simp [hv] at h
              | some v =>
                  simp only [hv, Option.some_bind] at h
                  simp only [compile]
                  rw [if_neg hd]
                  simp only [hp, getCellI_natCast, hv, Option.some_bind]
                  by_cases h0 : v = 0
                  · subst h0
                    rw [if_pos rfl] at h
                    rw [if_pos rfl]
                    exact IHf (by omega) h
                  · rw [if_neg h0] at h
                    rw [if_neg h0]
                    cases hb : run f body s dp with
                    | none => simp [hb] at h
                    | some r1 =>
                        obtain ⟨s1, q1⟩ := r1
                        simp only [hb, Option.some_bind] at h
                        have hbody := @IHf body s dp 0 (dp : Int) s1 q1 (by omega) hb
                        simp only [hbody, Option.some_bind]
                        exact IHf (by omega) h

/-- C1 (as stated, refuted): the closure chain built by `compile(program, 0)`
does not always produce the same output, consumed input, final tape and
final cursor as the reference interpreter.  On `<>+` from cursor 0 the
interpreter panics while decrementing its `usize` pointer at 0 and leaves
the tape `[5]` untouched with no final cursor, while the compiled chain
folds the two moves into a zero net displacement and completes, returning
cursor 0 with final tape `[6]`. -/
theorem compile_differs_from_run_on_aborts :
    run 10 [.DecrementPointer, .IncrementPointer, .Increment] ⟨[5], [], []⟩ 0 = none ∧
    compile 10 [.DecrementPointer, .IncrementPointer, .Increment] 0 ⟨[5], [], []⟩ 0 =
      some (⟨[6], [], []⟩, 0) :=
  ⟨rfl, rfl⟩

/-- C1 (amended): whenever the reference interpreter run on a tree, tape,
input stream and initial pointer completes without error, invoking the
closure chain built by `compile(program, 0)` on the same tape and cursor
completes and produces the same output bytes, consumes the same input
bytes, and yields the same final tape contents and final cursor position. -/
theorem compile_chain_refines_interpreter {fuel : Nat} {program : List Instruction}
    {s s' : S} {dp dp' : Nat}
    (h : run fuel program s dp = some (s', dp')) :
    compile fuel program 0 s (dp : Int) = some (s', (dp' : Int)) :=
  compile_simulates_run (by omega) h

/-- The C1 simulation at a concrete run: `,[>+<-]>.` echoes the input byte
2 into the next cell and writes it. -/
theorem compile_chain_refines_interpreter_witness :
    compile 40 [.Read, .Loop [.IncrementPointer, .Increment, .DecrementPointer, .Decrement],
      .IncrementPointer, .Write] 0 ⟨[0, 0], [2], []⟩ 0 = some (⟨[0, 2], [], [2]⟩, 1) := by
  have h := compile_chain_refines_interpreter
    (show run 40 [.Read, .Loop [.IncrementPointer, .Increment, .DecrementPointer, .Decrement],
      .IncrementPointer, .Write] ⟨[0, 0], [2], []⟩ 0 = some (⟨[0, 2], [], [2]⟩, 1) from rfl)
  exact_mod_cast h

/-! ### C4: the loop-to-zero special case -/

theorem setCellI_setCellI (s : S) (p : Int) (v w : Nat) :
    setCellI (setCellI s p v) p w = setCellI s p w := by
  simp [setCellI]

theorem setCellI_self {s : S} {p : Int} {v : Nat} (h : getCellI s p = some v) :
    setCellI s p v = s := by
  simp only [getCellI] at h
  split at h
  · simp [setCellI, set_self h]
  · exact absurd h (by simp)

theorem compile_dec_single {f : Nat} {s : S} {q : Int} {r : S × Int}
    (h : compile f [.Decrement] 0 s q = some r) :
    ∃ v, getCellI s q = some v ∧ r = (setCellI s q (adjByte v (-1)), q) := by
  match f with
  | 0 => simp [compile] at h
  | f + 1 =>
    simp only [compile] at h
    rw [add_zero] at h
    cases hv : getCellI s q with
    | none => simp [hv] at h
    | some v =>
      simp only [hv, Option.some_bind] at h
      match f with
      | 0 => simp [compile] at h
      | f + 1 =>
        simp only [compile] at h
        rw [add_zero] at h
        exact ⟨v, rfl, (Option.some_inj.mp h).symm⟩

theorem genIter_fuel_lt {f : Nat} :
    ∀ {body : List Instruction} {s : S} {q : Int} {r : S × Int × Nat},
      genIter f body s q = some r → r.2.2 < f ∧ ∃ v, getCellI s q = some v := by
  induction f with
  | zero => intro body s q r h; simp [genIter] at h
  | succ f ih =>
    intro body s q r h
    simp only [genIter] at h
    cases hv : getCellI s q with
    | none => simp [hv] at h
    | some v =>
      simp only [hv, Option.some_bind] at h
      by_cases h0 : v = 0
      · subst h0
        rw [if_pos rfl] at h
        obtain rfl := Option.some_inj.mp h
        exact ⟨by show f < f + 1; omega, 0, rfl⟩
      · rw [if_neg h0] at h
        cases hb : compile f body 0 s q with
        | none => simp [hb] at h
        | some r1 =>
            simp only [hb, Option.some_bind] at h
            obtain ⟨hlt, -⟩ := ih h
            exact ⟨by omega, v, rfl⟩

/-- A terminating general-strategy iteration of the body `[-]` zeroes the
cell at the cursor and leaves the cursor where it was. -/
theorem genIter_dec_drain {f : Nat} :
    ∀ {s : S} {q : Int} {r : S × Int × Nat},
      genIter f [.Decrement] s q = some r → r.1 = setCellI s q 0 ∧ r.2.1 = q := by
  induction f with
  | zero => intro s q r h; simp [genIter] at h
  | succ f ih =>
    intro s q r h
    simp only [genIter] at h
    cases hv : getCellI s q with
    | none => simp [hv] at h
    | some v =>
      simp only [hv, Option.some_bind] at h
      by_cases h0 : v = 0
      · subst h0
        rw [if_pos rfl] at h
        obtain rfl := Option.some_inj.mp h.symm
        exact ⟨(setCellI_self hv).symm, rfl⟩
      · rw [if_neg h0] at h
        cases hb : compile f [.Decrement] 0 s q with
        | none => simp [hb] at h
        | some r1 =>
            simp only [hb, Option.some_bind] at h
            obtain ⟨w, hw, rfl⟩ := compile_dec_single hb
            obtain ⟨h1, h2⟩ := ih h
            rw [h1, setCellI_setCellI]
            exact ⟨rfl, h2⟩

/-- For a loop body that is not exactly `[-]`, the compiled loop is the
general while strategy `genIter` followed by the continuation on the
leftover fuel. -/
theorem compile_loop_general {f : Nat} :
    ∀ {body rest : List Instruction} {delta_p : Int} {s : S} {p : Int},
      isDecBody body = false →
      compile f (.Loop body :: rest) delta_p s p =
        (genIter f body s (p + delta_p)).bind fun r => compile r.2.2 rest 0 r.1 r.2.1 := by
  induction f with
  | zero => intro body rest delta_p s p hd; simp [compile, genIter]
  | succ f ih =>
    intro body rest delta_p s p hd
    simp only [compile, genIter]
    rw [if_neg (by simp [hd])]
    cases hv : getCellI s (p + delta_p) with
    | none => simp [hv]
    | some v =>
      simp only [hv, Option.some_bind]
      by_cases h0 : v = 0
      · subst h0
        rw [if_pos rfl, if_pos rfl]
        simp
      · rw [if_neg h0, if_neg h0]
        cases hb : compile f body 0 s (p + delta_p) with
        | none => simp [hb]
        | some r1 =>
            simp only [hb, Option.some_bind]
            rw [ih hd]
            rw [add_zero]

/-- C4: the code generator recognizes a loop whose body is exactly the
single instruction `Decrement` and compiles it to "apply the pending
displacement, store 0 at the resulting cursor" (first conjunct); the
general while strategy on that exact body shape, whenever it terminates,
produces exactly that zeroed state with the cursor unmoved (second
conjunct), so the special case yields the identical final state whenever
the general semantics of that loop completes (third conjunct); every
other body shape is compiled to the general while strategy, never the
special case (fourth conjunct); and the full pipeline on `+++++[-].`
outputs the single byte 0 (fifth conjunct). -/
theorem compile_loop_to_zero_idiom :
    (∀ (fuel : Nat) (rest : List Instruction) (delta_p : Int) (s : S) (p : Int),
      compile (fuel + 1) (.Loop [.Decrement] :: rest) delta_p s p =
        (getCellI s (p + delta_p)).bind fun _ =>
          compile fuel rest 0 (setCellI s (p + delta_p) 0) (p + delta_p)) ∧
    (∀ (fuel : Nat) (s : S) (q : Int) (r : S × Int × Nat),
      genIter fuel [.Decrement] s q = some r → r.1 = setCellI s q 0 ∧ r.2.1 = q) ∧
    (∀ (fuel : Nat) (rest : List Instruction) (delta_p : Int) (s : S) (p : Int)
        (r : S × Int × Nat) (res : S × Int),
      genIter fuel [.Decrement] s (p + delta_p) = some r →
      compile r.2.2 rest 0 r.1 r.2.1 = some res →
      compile fuel (.Loop [.Decrement] :: rest) delta_p s p = some res) ∧
    (∀ (fuel : Nat) (body rest : List Instruction) (delta_p : Int) (s : S) (p : Int),
      isDecBody body = false →
      compile fuel (.Loop body :: rest) delta_p s p =
        (genIter fuel body s (p + delta_p)).bind fun r => compile r.2.2 rest 0 r.1 r.2.1) ∧
    main_run "+++++[-]." [] 100 = some [0] := by
  refine ⟨?_, ?_, ?_, ?_, ?_⟩
  · intro fuel rest delta_p s p
    simp only [compile]
    rw [if_pos (show isDecBody [.Decrement] = true from rfl)]
  · intro fuel s q r h
    exact genIter_dec_drain h
  · intro fuel rest delta_p s p r res hg hc
    obtain ⟨hlt, v, hv⟩ := genIter_fuel_lt hg
    obtain ⟨hset, hq⟩ := genIter_dec_drain hg
    obtain ⟨f, rfl⟩ : ∃ f, fuel = f + 1 := ⟨fuel - 1, by omega⟩
    simp only [compile]
    rw [if_pos (show isDecBody [.Decrement] = true from rfl)]
    simp only [hv, Option.some_bind]
    rw [hset, hq] at hc
    exact compile_mono (by omega) hc
  · intro fuel body rest delta_p s p hd
    exact compile_loop_general hd
  · have hp : parse (lex "+++++[-].") = .ok [.Increment, .Increment, .Increment, .Increment,
        .Increment, .Loop [.Decrement], .Write] := by
      simp [parse, parseGo, lex, lexList, lexChar]
    rw [main_run, hp]
    rfl

/-- The C4 equivalence at a concrete loop: from the cell value 3, the
general while strategy on `[-]` terminates in the zeroed state, and the
special-cased compilation of `[-].` yields that identical final state. -/
theorem compile_loop_to_zero_idiom_witness :
    compile 10 [.Loop [.Decrement], .Write] 0 ⟨[3], [], []⟩ 0 = some (⟨[0], [], [0]⟩, 0) := by
  have h := compile_loop_to_zero_idiom.2.2.1 10 [.Write] 0 ⟨[3], [], []⟩ 0
    (⟨[0], [], []⟩, 0, 6) (⟨[0], [], [0]⟩, 0) rfl rfl
  exact h

/-! ### C8: out-of-range cursors abort -/

theorem getCellI_none_of_oob {s : S} {p : Int}
    (h : p < 0 ∨ (s.tape.length : Int) ≤ p) : getCellI s p = none := by
  unfold getCellI
  rcases h with h | h
  · rw [if_neg (by omega)]
  · split
    · simp only [List.getElem?_eq_none_iff]
      omega
    · rfl

theorem compile_tape_length {f : Nat} :
    ∀ {l : List Instruction} {delta_p : Int} {s : S} {p : Int} {s' : S} {p' : Int},
      compile f l delta_p s p = some (s', p') → s'.tape.length = s.tape.length := by
  induction f with
  | zero => intro l delta_p s p s' p' h; simp [compile] at h
  | succ f ih =>
    intro l delta_p s p s' p' h
    cases l with
    | nil =>
        simp only [compile, Option.some_inj, Prod.mk.injEq] at h
        obtain ⟨rfl, -⟩ := h
        rfl
    | cons i rest =>
      cases i with
      | IncrementPointer => exact ih h
      | DecrementPointer => exact ih h
      | Increment =>
          simp only [compile] at h
          cases hv : getCellI s (p + delta_p) with
          | none => simp [hv] at h
          | some v =>
              simp only [hv, Option.some_bind] at h
              simpa [setCellI] using ih h
      | Decrement =>
          simp only [compile] at h
          cases hv : getCellI s (p + delta_p) with
          | none => simp [hv] at h
          | some v =>
              simp only [hv, Option.some_bind] at h
              simpa [setCellI] using ih h
      | Write =>
          simp only [compile] at h
          cases hv : getCellI s (p + delta_p) with
          | none => simp [hv] at h
          | some v =>
              simp only [hv, Option.some_bind] at h
              simpa using ih h
      | Read =>
          cases hi : s.inp with
          | nil => simp [compile, hi] at h
          | cons b bs =>
              simp only [compile, hi] at h
              cases hv : getCellI s (p + delta_p) with
              | none => simp [hv] at h
              | some v =>
                  simp only [hv, Option.some_bind] at h
                  simpa [setCellI] using ih h
      | Loop body =>
          simp only [compile] at h
          by_cases hd : isDecBody body = true
          · rw [if_pos hd] at h
            cases hv : getCellI s (p + delta_p) with
            | none => simp [hv] at h
            | some v =>
                simp only [hv, Option.some_bind] at h
                simpa [setCellI] using ih h
          · rw [if_neg hd] at h
            cases hv : getCellI s (p + delta_p) with
            | none => simp [hv] at h
            | some v =>
                simp only [hv, Option.some_bind] at h
                by_cases h0 : v = 0
                · subst h0
                  rw [if_pos rfl] at h
                  exact ih h
                · rw [if_neg h0] at h
                  cases hb : compile f body 0 s (p + delta_p) with
                  | none => simp [hb] at h
                  | some r1 =>
                      simp only [hb, Option.some_bind] at h
                      exact (ih h).trans (ih hb)

/-- C8: whenever the compiled chain reaches a tape-touching node (cell
adjust, write, read, or a loop in either compiled form) with the cursor,
after applying the pending displacement, below 0 or past the tape's last
valid index, it aborts with `none`: the cursor is never wrapped to the
other end.  Moreover a completed chain never changes the tape's length,
so no cell outside the tape is ever created or written. -/
theorem compile_out_of_bounds_aborts :
    (∀ (fuel : Nat) (rest : List Instruction) (delta_p : Int) (s : S) (p : Int),
      p + delta_p < 0 ∨ (s.tape.length : Int) ≤ p + delta_p →
      compile (fuel + 1) (.Increment :: rest) delta_p s p = none ∧
      compile (fuel + 1) (.Decrement :: rest) delta_p s p = none ∧
      compile (fuel + 1) (.Write :: rest) delta_p s p = none ∧
      compile (fuel + 1) (.Read :: rest) delta_p s p = none ∧
      (∀ body, compile (fuel + 1) (.Loop body :: rest) delta_p s p = none)) ∧
    (∀ (fuel : Nat) (l : List Instruction) (delta_p : Int) (s : S) (p : Int) (s' : S)
        (p' : Int),
      compile fuel l delta_p s p = some (s', p') → s'.tape.length = s.tape.length) := by
  constructor
  · intro fuel rest delta_p s p hoob
    have hnone := getCellI_none_of_oob hoob
    refine ⟨?_, ?_, ?_, ?_, ?_⟩
    · simp [compile, hnone]
    · simp [compile, hnone]
    · simp [compile, hnone]
    · cases hi : s.inp with
      | nil => simp [compile, hi]
      | cons b bs => simp [compile, hi, hnone]
    · intro body
      by_cases hd : isDecBody body = true
      · simp only [compile]
        rw [if_pos hd]
        simp [hnone]
      · simp only [compile]
        rw [if_neg hd]
        simp [hnone]
  · intro fuel l delta_p s p s' p' h
    exact compile_tape_length h

/-- The C8 aborts at concrete out-of-range cursors: one past the end of a
one-cell tape, and below address 0; and a completed in-range chain
preserves the tape length. -/
theorem compile_out_of_bounds_aborts_witness :
    compile 4 [.Increment] 0 ⟨[7], [], []⟩ 1 = none ∧
    compile 4 [.Write] (-1) ⟨[7], [], []⟩ 0 = none ∧
    ([7] : List Nat).length = ([8] : List Nat).length := by
  refine ⟨?_, ?_, ?_⟩
  · exact (compile_out_of_bounds_aborts.1 3 [] 0 ⟨[7], [], []⟩ 1 (by decide)).1
  · exact (compile_out_of_bounds_aborts.1 3 [] (-1) ⟨[7], [], []⟩ 0 (by decide)).2.2.1
  · exact (compile_out_of_bounds_aborts.2 4 [.Increment] 0 ⟨[7], [], []⟩ 0 ⟨[8], [], []⟩ 0
      rfl).symm

/-! ### C9 and C10: the executor environment and an end-to-end run -/

/-- C9: the full pipeline — lex, parse, compile with initial displacement
0, then invoking the chain on the zero-initialized tape with the cursor at
512 — on the source text `++[>++<-]>.` writes exactly one output byte,
whose value is 4. -/
theorem pipeline_nested_loop_outputs_four :
    main_run "++[>++<-]>." [] 100 = some [4] := by
  have hp : parse (lex "++[>++<-]>.") = .ok [.Increment, .Increment,
      .Loop [.IncrementPointer, .Increment, .Increment, .DecrementPointer, .Decrement],
      .IncrementPointer, .Write] := by
    simp [parse, parseGo, lex, lexList, lexChar]
  rw [main_run, hp]
  rfl

/-- C10: the executor allocates a tape of exactly 1024 cells, every one of
them zero, and starts the cursor at index 512 (`main_run` invokes the
compiled chain once on exactly this state); consequently the displaced
address `512 + d` is a valid tape index exactly when `-512 ≤ d ≤ 511`. -/
theorem main_environment :
    main_tape.length = 1024 ∧
    (∀ i : Nat, main_tape[i]? = if i < 1024 then some 0 else none) ∧
    main_pointer = 512 ∧
    (∀ d : Int,
      (0 ≤ (main_pointer : Int) + d ∧ (main_pointer : Int) + d < (main_tape.length : Int)) ↔
        (-512 ≤ d ∧ d ≤ 511)) := by
  refine ⟨by simp [main_tape], ?_, rfl, ?_⟩
  · intro i
    rw [show main_tape = List.replicate 1024 0 from rfl, List.getElem?_replicate]
  · intro d
    simp only [main_tape, main_pointer, List.length_replicate]
    constructor
    · intro h
      push_cast at h
      omega
    · intro h
      push_cast
      omega

/-! ### The optimizer: shapes of emit, maybe_emit and the scan -/

theorem emit_eq (acc : List BigInsn) (dp d : Int) :
    emit acc dp d = (acc ++ emitNodes dp d, 0, 0) := by
  simp only [emit, emitNodes]
  by_cases hdp : dp = 0 <;> by_cases hd : d = 0 <;> simp [hdp, hd]

theorem maybe_emit_of_zero (acc : List BigInsn) (dp : Int) :
    maybe_emit acc dp 0 = (acc, dp, 0) := by
  simp [maybe_emit]

theorem maybe_emit_of_ne {d : Int} (acc : List BigInsn) (dp : Int) (h : d ≠ 0) :
    maybe_emit acc dp d = (acc ++ emitNodes dp d, 0, 0) := by
  simp [maybe_emit, h, emit_eq]

theorem raiseGo_isSome (l : List Instruction) :
    ∀ (acc : List BigInsn) (dp d : Int), (raiseGo l acc dp d).isSome = true := by
  match l with
  | [] => intro acc dp d; simp [raiseGo]
  | .IncrementPointer :: rest =>
      intro acc dp d
      simp only [raiseGo]
      exact raiseGo_isSome rest ..
  | .DecrementPointer :: rest =>
      intro acc dp d
      simp only [raiseGo]
      exact raiseGo_isSome rest ..
  | .Increment :: rest => intro acc dp d; simp only [raiseGo]; exact raiseGo_isSome rest ..
  | .Decrement :: rest => intro acc dp d; simp only [raiseGo]; exact raiseGo_isSome rest ..
  | .Write :: rest => intro acc dp d; simp only [raiseGo]; exact raiseGo_isSome rest ..
  | .Read :: rest => intro acc dp d; simp only [raiseGo]; exact raiseGo_isSome rest ..
  | .Loop body :: rest =>
      intro acc dp d
      simp only [raiseGo, emit_eq]
      have hb := raiseGo_isSome body [] 0 0
      cases hbody : raiseGo body [] 0 0 with
      | none => rw [hbody] at hb; simp at hb
      | some r =>
          split
          · simp_all
          · rename_i bc bdp bd hcond
            split
            · exact raiseGo_isSome rest ..
            · rename_i hc
              simp at hc
termination_by sizeOf l

theorem raise_abstraction_isSome (l : List Instruction) :
    (raise_abstraction l).isSome = true := by
  unfold raise_abstraction
  have h := raiseGo_isSome l [] 0 0
  cases hr : raiseGo l [] 0 0 with
  | none => rw [hr] at h; simp at h
  | some r => simp

/-- C7: the two assertions checked immediately after emitting a Loop node
always hold.  `emit` returns both accumulators exactly zero (first
conjunct), so the assertion check modelled inside the scan never fires:
`raiseGo` succeeds from every accumulator state (second conjunct) and
`raise_abstraction` succeeds on every input tree (third conjunct) — the
optimizer never carries a pending un-flushed move or adjust delta across a
loop boundary at any nesting level. -/
theorem raise_loop_assertions_hold :
    (∀ (acc : List BigInsn) (dp d : Int), (emit acc dp d).2 = (0, 0)) ∧
    (∀ (l : List Instruction) (acc : List BigInsn) (dp d : Int),
      (raiseGo l acc dp d).isSome = true) ∧
    (∀ l : List Instruction, (raise_abstraction l).isSome = true) := by
  refine ⟨?_, ?_, ?_⟩
  · intro acc dp d
    rw [emit_eq]
  · intro l acc dp d
    exact raiseGo_isSome l acc dp d
  · exact raise_abstraction_isSome

/-- C5 (as stated, refuted): when the optimizer processes a MoveRight or
MoveLeft with a non-zero `pending_adjust`, it does not flush only
`pending_adjust`: `maybe_emit` calls `emit`, which also flushes a non-zero
`pending_move` as a Move node, zeroing it.  Concretely, from the
accumulator state `deltap = 1, delta = 1` the step emits `Move 1` before
`Adj 1`, and on `>+<` the optimizer output begins with `Move 1`. -/
theorem optimizer_move_flushes_move_too :
    maybe_emit [] 1 1 = ([.Move 1, .Adj 1], 0, 0) ∧
    raise_abstraction [.IncrementPointer, .Increment, .DecrementPointer] =
      some [.Move 1, .Adj 1, .Move (-1)] := by
  constructor
  · simp [maybe_emit, emit]
  · simp [raise_abstraction, raiseGo, maybe_emit, emit]

/-- C5 (amended): when the optimizer processes a MoveRight or MoveLeft it
consults `pending_adjust`: if it is zero nothing is emitted and
`pending_move` keeps accumulating; if it is non-zero both accumulators are
flushed — a Move node first when `pending_move` is non-zero, then the
Adjust node — and both are zeroed; in either case ±1 is then accumulated
into `pending_move`. -/
theorem optimizer_move_step (rest : List Instruction) (acc : List BigInsn) (dp d : Int) :
    (d = 0 →
      raiseGo (.IncrementPointer :: rest) acc dp d = raiseGo rest acc (dp + 1) d ∧
      raiseGo (.DecrementPointer :: rest) acc dp d = raiseGo rest acc (dp - 1) d) ∧
    (d ≠ 0 →
      raiseGo (.IncrementPointer :: rest) acc dp d =
        raiseGo rest (acc ++ emitNodes dp d) (0 + 1) 0 ∧
      raiseGo (.DecrementPointer :: rest) acc dp d =
        raiseGo rest (acc ++ emitNodes dp d) (0 - 1) 0) := by
  constructor
  · rintro rfl
    constructor <;> simp only [raiseGo, maybe_emit_of_zero]
  · intro hd
    constructor <;> simp only [raiseGo, maybe_emit_of_ne _ _ hd]

/-- The C5 move step at concrete accumulator states: with no pending
adjust the move only accumulates; with pending adjust 1 and pending move 1
the step flushes both. -/
theorem optimizer_move_step_witness :
    raiseGo [.IncrementPointer] [] 5 0 = raiseGo [] [] (5 + 1) 0 ∧
    raiseGo [.DecrementPointer] [] 1 1 = raiseGo [] ([] ++ emitNodes 1 1) (0 - 1) 0 := by
  have h1 := (optimizer_move_step [] [] 5 0).1 rfl
  have h2 := (optimizer_move_step [] [] 1 1).2 (by decide)
  exact ⟨h1.1, h2.2⟩

/-- C6 (as stated, refuted): in `>+-<` the maximal run `>` of consecutive
move instructions has net sum +1, yet the optimizer emits no Move node for
it: the interposed zero-net adjust run `+-` leaves `pending_adjust` at
zero, so the following `<` flushes nothing, the two move runs merge, their
sum cancels, and the entire output is empty. -/
theorem optimizer_zero_net_adjust_merges_moves :
    raise_abstraction [.IncrementPointer, .Increment, .Decrement, .DecrementPointer] =
      some [] ∧
    netMove [.IncrementPointer] = 1 := by
  constructor
  · simp [raise_abstraction, raiseGo, maybe_emit, emit]
  · rfl

theorem raiseGo_moves (ms : List Instruction) :
    ∀ (acc : List BigInsn) (dp : Int), (∀ i ∈ ms, isMove i = true) →
      raiseGo ms acc dp 0 = some (acc, dp + netMove ms, 0) := by
  induction ms with
  | nil =>
      intro acc dp _
      simp [raiseGo, netMove]
  | cons a t ih =>
    intro acc dp hm
    have ha := hm a (by simp)
    have ht : ∀ i ∈ t, isMove i = true := fun i hi => hm i (by simp [hi])
    cases a <;> simp [isMove] at ha
    · simp only [raiseGo, maybe_emit_of_zero]
      rw [ih _ _ ht]
      have : dp + 1 + netMove t = dp + netMove (Instruction.IncrementPointer :: t) := by
        simp [netMove]
        ring
      rw [this]
    · simp only [raiseGo, maybe_emit_of_zero]
      rw [ih _ _ ht]
      have : dp - 1 + netMove t = dp + netMove (Instruction.DecrementPointer :: t) := by
        simp [netMove]
        ring
      rw [this]

theorem raiseGo_adjs (as : List Instruction) :
    ∀ (acc : List BigInsn) (dp d : Int), (∀ i ∈ as, isAdj i = true) →
      raiseGo as acc dp d = some (acc, dp, d + netAdj as) := by
  induction as with
  | nil =>
      intro acc dp d _
      simp [raiseGo, netAdj]
  | cons a t ih =>
    intro acc dp d hm
    have ha := hm a (by simp)
    have ht : ∀ i ∈ t, isAdj i = true := fun i hi => hm i (by simp [hi])
    cases a <;> simp [isAdj] at ha
    · simp only [raiseGo]
      rw [ih _ _ _ ht]
      have : d + 1 + netAdj t = d + netAdj (Instruction.Increment :: t) := by
        simp [netAdj]
        ring
      rw [this]
    · simp only [raiseGo]
      rw [ih _ _ _ ht]
      have : d - 1 + netAdj t = d + netAdj (Instruction.Decrement :: t) := by
        simp [netAdj]
        ring
      rw [this]

theorem raiseGo_append (xs : List Instruction) :
    ∀ (ys : List Instruction) (acc : List BigInsn) (dp d : Int),
      raiseGo (xs ++ ys) acc dp d =
        (raiseGo xs acc dp d).bind fun r => raiseGo ys r.1 r.2.1 r.2.2 := by
  induction xs with
  | nil =>
      intro ys acc dp d
      simp [raiseGo]
  | cons a t ih =>
    intro ys acc dp d
    cases a with
    | IncrementPointer =>
        rcases hme : maybe_emit acc dp d with ⟨c, dp', d'⟩
        simp only [List.cons_append, raiseGo, hme]
        exact ih ..
    | DecrementPointer =>
        rcases hme : maybe_emit acc dp d with ⟨c, dp', d'⟩
        simp only [List.cons_append, raiseGo, hme]
        exact ih ..
    | Increment =>
        simp only [List.cons_append, raiseGo]
        exact ih ..
    | Decrement =>
        simp only [List.cons_append, raiseGo]
        exact ih ..
    | Write =>
        rcases hme : emit acc dp d with ⟨c, dp', d'⟩
        simp only [List.cons_append, raiseGo, hme]
        exact ih ..
    | Read =>
        rcases hme : emit acc dp d with ⟨c, dp', d'⟩
        simp only [List.cons_append, raiseGo, hme]
        exact ih ..
    | Loop body =>
        rcases hme : emit acc dp d with ⟨c, dp', d'⟩
        simp only [List.cons_append, raiseGo, hme]
        cases hb : raiseGo body [] 0 0 with
        | none => simp
        | some r =>
            obtain ⟨bc, bdp, bd⟩ := r
            dsimp only
            by_cases hcond : dp' = 0 ∧ d' = 0
            · rw [if_pos hcond, if_pos hcond]
              exact ih ..
            · rw [if_neg hcond, if_neg hcond]
              simp

/-- Loading a move run then an adjust run into the accumulators: scanned
from a flushed pending adjust, they emit nothing and leave the pending
displacement increased by the move run's net sum and the pending adjust
holding the adjust run's net sum, whatever follows. -/
theorem raiseGo_runs_load (ms as rest : List Instruction) (acc : List BigInsn) (dp : Int)
    (hm : ∀ i ∈ ms, isMove i = true) (ha : ∀ i ∈ as, isAdj i = true) :
    raiseGo (ms ++ as ++ rest) acc dp 0 =
      raiseGo rest acc (dp + netMove ms) (netAdj as) := by
  rw [List.append_assoc, raiseGo_append, raiseGo_moves ms acc dp hm]
  simp only [Option.some_bind]
  rw [raiseGo_append, raiseGo_adjs as acc (dp + netMove ms) 0 ha]
  simp only [Option.some_bind, zero_add]

/-- A Write flushes both accumulators (at most one Move node then at most
one Adjust node) and emits the Write node, zeroing both accumulators. -/
theorem raiseGo_write_step (rest : List Instruction) (acc : List BigInsn) (dp d : Int) :
    raiseGo (.Write :: rest) acc dp d =
      raiseGo rest (acc ++ emitNodes dp d ++ [.Write]) 0 0 := by
  simp only [raiseGo, emit_eq, List.append_assoc]

/-- A Read flushes both accumulators (at most one Move node then at most
one Adjust node) and emits the Read node, zeroing both accumulators. -/
theorem raiseGo_read_step (rest : List Instruction) (acc : List BigInsn) (dp d : Int) :
    raiseGo (.Read :: rest) acc dp d =
      raiseGo rest (acc ++ emitNodes dp d ++ [.Read]) 0 0 := by
  simp only [raiseGo, emit_eq, List.append_assoc]

/-! ### C2: machinery relating the optimized and unoptimized executions -/

theorem get_set_self {l : List Nat} :
    ∀ {q w : Nat}, l[q]? = some w → ∀ x, (l.set q x)[q]? = some x := by
  induction l with
  | nil => intro q w h; simp at h
  | cons a t ih =>
    intro q w h x
    cases q with
    | zero => simp
    | succ q => simp_all

theorem adjByte_lt (v : Nat) (d : Int) : adjByte v d < 256 := by
  unfold adjByte
  omega

theorem adjByte_zero {w : Nat} (h : w < 256) : adjByte w 0 = w := by
  unfold adjByte
  omega

theorem applyAdj_zero (s : S) (q : Nat) : applyAdj s q 0 = s := by
  simp [applyAdj]

theorem applyAdj_of_ne {s : S} {q : Nat} {w : Nat} {d : Int} (hd : d ≠ 0)
    (hw : s.tape[q]? = some w) : applyAdj s q d = setCellN s q (adjByte w d) := by
  simp [applyAdj, hd, hw]

theorem applyAdj_tape_length (s : S) (q : Nat) (d : Int) :
    (applyAdj s q d).tape.length = s.tape.length := by
  unfold applyAdj
  split
  · rfl
  · split
    · simp [setCellN]
    · rfl

theorem applyAdj_inp (s : S) (q : Nat) (d : Int) : (applyAdj s q d).inp = s.inp := by
  unfold applyAdj
  split
  · rfl
  · split <;> rfl

theorem applyAdj_out (s : S) (q : Nat) (d : Int) : (applyAdj s q d).out = s.out := by
  unfold applyAdj
  split
  · rfl
  · split <;> rfl

theorem BytesS_setCellN {s : S} (hB : BytesS s) {v : Nat} (hv : v < 256) (q : Nat) :
    BytesS (setCellN s q v) := by
  obtain ⟨ht, hi⟩ := hB
  refine ⟨?_, hi⟩
  intro x hx
  rcases List.mem_or_eq_of_mem_set hx with hx | rfl
  · exact ht x hx
  · exact hv

theorem BytesS_applyAdj {s : S} (hB : BytesS s) (q : Nat) (d : Int) :
    BytesS (applyAdj s q d) := by
  unfold applyAdj
  split
  · exact hB
  · split
    · exact BytesS_setCellN hB (adjByte_lt ..) q
    · exact hB

/-- Reading the cell at `q` through a pending adjust. -/
theorem getCellN_applyAdj {s : S} {q w : Nat} (hw : getCellN s q = some w) (d : Int) :
    getCellN (applyAdj s q d) q = some (if d = 0 then w else adjByte w d) := by
  simp only [getCellN] at hw ⊢
  by_cases hd : d = 0
  · simp [hd, applyAdj, hw]
  · rw [applyAdj_of_ne hd hw, if_neg hd]
    exact get_set_self hw _

/-- The accumulator step: performing one more cell adjustment of `e` on the
reference side extends the pending delta from `d` to `d + e`. -/
theorem applyAdj_step {sO : S} {q w : Nat} (hw : getCellN sO q = some w) (hlt : w < 256)
    (d e : Int) {v : Nat} (hv : getCellN (applyAdj sO q d) q = some v) :
    setCellN (applyAdj sO q d) q (adjByte v e) = applyAdj sO q (d + e) := by
  rw [getCellN_applyAdj hw d] at hv
  by_cases hd : d = 0
  · subst hd
    rw [if_pos rfl] at hv
    obtain rfl := Option.some_inj.mp hv
    rw [applyAdj_zero]
    by_cases he : e = 0
    · subst he
      rw [adjByte_zero hlt, zero_add, applyAdj_zero]
      exact setCellN_self hw
    · rw [zero_add, applyAdj_of_ne he hw]
  · rw [if_neg hd] at hv
    obtain rfl := Option.some_inj.mp hv
    rw [applyAdj_of_ne hd hw, setCellN_setCellN, adjByte_adjByte]
    by_cases hde : d + e = 0
    · rw [hde, adjByte_zero hlt, applyAdj_zero]
      exact setCellN_self hw
    · rw [applyAdj_of_ne hde hw]

/-- Sequential composition of optimized runs. -/
theorem bigRun_append {f1 : Nat} :
    ∀ {xs ys : List BigInsn} {s : S} {p : Int} {s1 : S} {p1 : Int} {f2 : Nat} {r : S × Int},
      bigRun f1 xs s p = some (s1, p1) → bigRun f2 ys s1 p1 = some r →
      bigRun (f1 + f2) (xs ++ ys) s p = some r := by
  induction f1 with
  | zero => intro xs ys s p s1 p1 f2 r h _; simp [bigRun] at h
  | succ f1 ih =>
    intro xs ys s p s1 p1 f2 r h hk
    have hf2 : f2 ≠ 0 := by
      intro hz
      rw [hz] at hk
      simp [bigRun] at hk
    cases xs with
    | nil =>
        simp only [bigRun, Option.some_inj, Prod.mk.injEq] at h
        obtain ⟨rfl, rfl⟩ := h
        exact bigRun_mono (by omega) hk
    | cons x t =>
      rw [show f1 + 1 + f2 = (f1 + f2) + 1 from by omega]
      cases x with
      | Move dlt =>
          simp only [bigRun] at h
          simpa only [List.cons_append, bigRun] using ih h hk
      | Adj dlt =>
          simp only [bigRun] at h
          cases hv : getCellI s p with
          | none => simp [hv] at h
          | some v =>
              simp only [hv, Option.some_bind] at h
              simp only [List.cons_append, bigRun, hv, Option.some_bind]
              exact ih h hk
      | Write =>
          simp only [bigRun] at h
          cases hv : getCellI s p with
          | none => simp [hv] at h
          | some v =>
              simp only [hv, Option.some_bind] at h
              simp only [List.cons_append, bigRun, hv, Option.some_bind]
              exact ih h hk
      | Read =>
          cases hi : s.inp with
          | nil => simp [bigRun, hi] at h
          | cons b bs =>
              simp only [bigRun, hi] at h
              cases hv : getCellI s p with
              | none => simp [hv] at h
              | some v =>
                  simp only [hv, Option.some_bind] at h
                  simp only [List.cons_append, bigRun, hi, hv, Option.some_bind]
                  exact ih h hk
      | Loop body =>
          simp only [bigRun] at h
          cases hv : getCellI s p with
          | none => simp [hv] at h
          | some v =>
              simp only [hv, Option.some_bind] at h
              simp only [List.cons_append, bigRun, hv, Option.some_bind]
              by_cases h0 : v = 0
              · subst h0
                rw [if_pos rfl] at h
                rw [if_pos rfl]
                exact ih h hk
              · rw [if_neg h0] at h
                rw [if_neg h0]
                cases hb : bigRun f1 body s p with
                | none => simp [hb] at h
                | some r1 =>
                    simp only [hb, Option.some_bind] at h
                    simp only [bigRun_mono (by omega : f1 ≤ f1 + f2) hb, Option.some_bind]
                    exact ih h hk

/-- Running the flush nodes of one `emit` call: they move the cursor to
`q` and apply the pending cell delta there. -/
theorem bigRun_emitNodes {sO : S} {p dp d : Int} {q : Nat}
    (hpq : p + dp = (q : Int)) (hq : d ≠ 0 → q < sO.tape.length) :
    bigRun 3 (emitNodes dp d) sO p = some (applyAdj sO q d, (q : Int)) := by
  by_cases hd : d = 0
  · subst hd
    rw [applyAdj_zero]
    by_cases hdp : dp = 0
    · subst hdp
      simp only [emitNodes]
      rw [if_neg (by omega : ¬(0 : Int) ≠ 0), if_neg (by omega : ¬(0 : Int) ≠ 0)]
      simp only [List.append_nil]
      simp [bigRun]
      omega
    · simp only [emitNodes]
      rw [if_pos hdp, if_neg (by omega : ¬(0 : Int) ≠ 0)]
      simp only [List.append_nil]
      simp [bigRun, hpq]
  · have hlen := hq hd
    obtain ⟨w, hw⟩ := getCellN_of_lt hlen
    have hwI : getCellI sO ((q : Nat) : Int) = some w := by
      rw [getCellI_natCast]
      exact hw
    have hset : setCellI sO ((q : Nat) : Int) (adjByte w d) = applyAdj sO q d := by
      rw [setCellI_natCast, applyAdj_of_ne hd hw]
    by_cases hdp : dp = 0
    · have hp : p = (q : Int) := by omega
      subst hp
      simp only [emitNodes]
      rw [if_neg (by omega : ¬dp ≠ 0), if_pos hd]
      simp only [List.nil_append]
      simp [bigRun, hwI, hset]
    · simp only [emitNodes]
      rw [if_pos hdp, if_pos hd]
      simp only [List.cons_append, List.nil_append]
      rw [show (3 : Nat) = 2 + 1 from rfl]
      simp only [bigRun]
      rw [hpq]
      simp [bigRun, hwI, hset]

/-- One non-zero test of an optimized loop unfolds to the body then the
loop again. -/
theorem bigRun_loop_step {body k : List BigInsn} {s : S} {p : Int} {v : Nat}
    (hv : getCellI s p = some v) (h0 : v ≠ 0) {f1 f2 : Nat} {s1 : S} {p1 : Int}
    {r : S × Int} (hb : bigRun f1 body s p = some (s1, p1))
    (hk : bigRun f2 (.Loop body :: k) s1 p1 = some r) :
    bigRun (f1 + f2 + 1) (.Loop body :: k) s p = some r := by
  simp only [bigRun, hv, Option.some_bind]
  rw [if_neg h0]
  simp only [bigRun_mono (by omega : f1 ≤ f1 + f2) hb, Option.some_bind]
  exact bigRun_mono (by omega) hk

/-- The accumulated code is a prefix: `raiseGo` only appends. -/
theorem raiseGo_acc (l : List Instruction) :
    ∀ (acc : List BigInsn) (dp d : Int),
      raiseGo l acc dp d = (raiseGo l [] dp d).map fun r => (acc ++ r.1, r.2) := by
  induction l with
  | nil => intro acc dp d; simp [raiseGo]
  | cons a t ih =>
    intro acc dp d
    cases a with
    | IncrementPointer =>
        by_cases hd : d = 0
        · subst hd
          simp only [raiseGo, maybe_emit_of_zero]
          rw [ih acc]
        · simp only [raiseGo, maybe_emit_of_ne _ _ hd]
          rw [ih (acc ++ emitNodes dp d), ih ([] ++ emitNodes dp d)]
          cases raiseGo t [] (0 + 1) 0 <;> simp
    | DecrementPointer =>
        by_cases hd : d = 0
        · subst hd
          simp only [raiseGo, maybe_emit_of_zero]
          rw [ih acc]
        · simp only [raiseGo, maybe_emit_of_ne _ _ hd]
          rw [ih (acc ++ emitNodes dp d), ih ([] ++ emitNodes dp d)]
          cases raiseGo t [] (0 - 1) 0 <;> simp
    | Increment =>
        simp only [raiseGo]
        rw [ih acc]
    | Decrement =>
        simp only [raiseGo]
        rw [ih acc]
    | Write =>
        simp only [raiseGo, emit_eq]
        rw [ih (acc ++ emitNodes dp d ++ [BigInsn.Write]),
          ih ([] ++ emitNodes dp d ++ [BigInsn.Write])]
        cases raiseGo t [] 0 0 <;> simp
    | Read =>
        simp only [raiseGo, emit_eq]
        rw [ih (acc ++ emitNodes dp d ++ [BigInsn.Read]),
          ih ([] ++ emitNodes dp d ++ [BigInsn.Read])]
        cases raiseGo t [] 0 0 <;> simp
    | Loop body =>
        simp only [raiseGo, emit_eq]
        cases hb : raiseGo body [] 0 0 with
        | none => simp
        | some rb =>
            obtain ⟨bc, bdp, bd⟩ := rb
            dsimp only
            split
            · rw [ih (acc ++ emitNodes dp d ++ [BigInsn.Loop (bc ++ emitNodes bdp bd)]),
                ih ([] ++ emitNodes dp d ++ [BigInsn.Loop (bc ++ emitNodes bdp bd)])]
              cases raiseGo t [] 0 0 <;> simp
            · simp

theorem getCellN_mem {s : S} {q v : Nat} (h : getCellN s q = some v) : v ∈ s.tape := by
  simp only [getCellN] at h
  exact List.getElem?_mem h

/-- Unfolding one Loop node of the scan, given the optimization of its
body. -/
theorem raiseGo_loop_eq {body : List Instruction} {bc : List BigInsn} {bdp bd : Int}
    (hb : raiseGo body [] 0 0 = some (bc, bdp, bd)) (rest : List Instruction)
    (acc : List BigInsn) (dp d : Int) :
    raiseGo (.Loop body :: rest) acc dp d =
      raiseGo rest (acc ++ emitNodes dp d ++ [.Loop (bc ++ emitNodes bdp bd)]) 0 0 := by
  simp only [raiseGo, emit_eq, hb]
  split
  · rfl
  · rename_i hc
    simp at hc

/-- Claim C6 (amended): at one nesting level, a run of consecutive move
instructions followed by a run of consecutive adjust instructions
coalesces into at most one signed Move node then at most one signed
Adjust node, each carrying the run's net sum and absent when that sum is
zero, whenever the runs are delimited by a Write (first conjunct), a Read
(second), a Loop (third — whose body is scanned by the same function from
empty output and zeroed accumulators, so these same conjuncts govern runs
inside loop bodies), a flush forced by a move instruction arriving while
the pending adjust is non-zero (fourth), or the end of the sequence
(fifth); each statement holds for an arbitrary already-emitted prefix
`acc`, arbitrary pending displacement and an arbitrary continuation
`rest`, so it covers runs anywhere inside larger programs.  The exception
the counterexample exposes is the sixth conjunct: a zero-net adjust run
does not flush `pending_move`, so two move runs separated only by such a
run merge into a single Move node carrying their combined net sum rather
than one node per maximal run. -/
theorem optimizer_coalesces_runs :
    (∀ (ms as rest : List Instruction) (acc : List BigInsn) (dp : Int),
      (∀ i ∈ ms, isMove i = true) → (∀ i ∈ as, isAdj i = true) →
      raiseGo (ms ++ as ++ .Write :: rest) acc dp 0 =
        raiseGo rest (acc ++ emitNodes (dp + netMove ms) (netAdj as) ++ [.Write]) 0 0) ∧
    (∀ (ms as rest : List Instruction) (acc : List BigInsn) (dp : Int),
      (∀ i ∈ ms, isMove i = true) → (∀ i ∈ as, isAdj i = true) →
      raiseGo (ms ++ as ++ .Read :: rest) acc dp 0 =
        raiseGo rest (acc ++ emitNodes (dp + netMove ms) (netAdj as) ++ [.Read]) 0 0) ∧
    (∀ (ms as body rest : List Instruction) (acc : List BigInsn) (dp : Int),
      (∀ i ∈ ms, isMove i = true) → (∀ i ∈ as, isAdj i = true) →
      raiseGo (ms ++ as ++ .Loop body :: rest) acc dp 0 =
        (raiseGo body [] 0 0).bind fun r =>
          raiseGo rest (acc ++ emitNodes (dp + netMove ms) (netAdj as) ++
            [.Loop (r.1 ++ emitNodes r.2.1 r.2.2)]) 0 0) ∧
    (∀ (as ms rest : List Instruction) (acc : List BigInsn) (dp d : Int),
      (∀ i ∈ as, isAdj i = true) → (∀ i ∈ ms, isMove i = true) →
      ms ≠ [] → d + netAdj as ≠ 0 →
      raiseGo (as ++ ms ++ rest) acc dp d =
        raiseGo rest (acc ++ emitNodes dp (d + netAdj as)) (netMove ms) 0) ∧
    (∀ ms as : List Instruction, (∀ i ∈ ms, isMove i = true) → (∀ i ∈ as, isAdj i = true) →
      raise_abstraction (ms ++ as) = some (emitNodes (netMove ms) (netAdj as))) ∧
    (∀ (ms as ms' rest : List Instruction) (acc : List BigInsn) (dp : Int),
      (∀ i ∈ ms, isMove i = true) → (∀ i ∈ as, isAdj i = true) → netAdj as = 0 →
      (∀ i ∈ ms', isMove i = true) →
      raiseGo (ms ++ as ++ ms' ++ .Write :: rest) acc dp 0 =
        raiseGo rest (acc ++ emitNodes (dp + netMove ms + netMove ms') 0 ++ [.Write]) 0 0) := by
  refine ⟨?_, ?_, ?_, ?_, ?_, ?_⟩
  · intro ms as rest acc dp hm ha
    rw [raiseGo_runs_load ms as (.Write :: rest) acc dp hm ha, raiseGo_write_step]
  · intro ms as rest acc dp hm ha
    rw [raiseGo_runs_load ms as (.Read :: rest) acc dp hm ha, raiseGo_read_step]
  · intro ms as body rest acc dp hm ha
    rw [raiseGo_runs_load ms as (.Loop body :: rest) acc dp hm ha]
    cases hb : raiseGo body [] 0 0 with
    | none =>
        simp only [raiseGo, emit_eq, hb]
        simp
    | some r =>
        obtain ⟨bc, bdp, bd⟩ := r
        rw [raiseGo_loop_eq hb rest acc (dp + netMove ms) (netAdj as)]
        rfl
  · intro as ms rest acc dp d ha hm hne hnz
    rw [List.append_assoc, raiseGo_append, raiseGo_adjs as acc dp d ha]
    simp only [Option.some_bind]
    cases ms with
    | nil => exact absurd rfl hne
    | cons m t =>
        have hm_m := hm m (by simp)
        have hmt : ∀ i ∈ t, isMove i = true := fun i hi => hm i (by simp [hi])
        cases m <;> simp [isMove] at hm_m
        · simp only [List.cons_append, raiseGo, maybe_emit_of_ne _ _ hnz]
          rw [raiseGo_append, raiseGo_moves t _ _ hmt]
          simp only [Option.some_bind]
          have he : (0 : Int) + 1 + netMove t =
              netMove (Instruction.IncrementPointer :: t) := by
            simp [netMove]
            ring
          rw [he]
        · simp only [List.cons_append, raiseGo, maybe_emit_of_ne _ _ hnz]
          rw [raiseGo_append, raiseGo_moves t _ _ hmt]
          simp only [Option.some_bind]
          have he : (0 : Int) - 1 + netMove t =
              netMove (Instruction.DecrementPointer :: t) := by
            simp [netMove]
            ring
          rw [he]
  · intro ms as hm ha
    unfold raise_abstraction
    rw [raiseGo_append, raiseGo_moves ms [] 0 hm]
    simp only [Option.some_bind]
    rw [raiseGo_adjs as [] (0 + netMove ms) 0 ha]
    simp [emit_eq]
  · intro ms as ms' rest acc dp hm ha h0 hm'
    rw [List.append_assoc (ms ++ as) ms' (.Write :: rest)]
    rw [raiseGo_runs_load ms as (ms' ++ .Write :: rest) acc dp hm ha, h0]
    rw [raiseGo_append, raiseGo_moves ms' acc (dp + netMove ms) hm']
    simp only [Option.some_bind]
    rw [raiseGo_write_step]

/-- The C6 coalescing at concrete runs: the move run and adjust run of
the program fragment that reads two moves right, one increment and a
write coalesce at the Write into a single Move 2 then a single Adj 1; a
move arriving while the pending adjust holds 1 flushes that run to a
single Adj 1 node; and the trailing runs of two moves right then one
increment flush at the end of the sequence to Move 2 then Adj 1. -/
theorem optimizer_coalesces_runs_witness :
    raiseGo [.IncrementPointer, .IncrementPointer, .Increment, .Write] [] 0 0 =
      some ([.Move 2, .Adj 1, .Write], 0, 0) ∧
    raiseGo [.Increment, .DecrementPointer] [] 0 0 = some ([.Adj 1], -1, 0) ∧
    raise_abstraction [.IncrementPointer, .IncrementPointer, .Increment] =
      some [.Move 2, .Adj 1] := by
  refine ⟨?_, ?_, ?_⟩
  · have h := optimizer_coalesces_runs.1 [.IncrementPointer, .IncrementPointer] [.Increment]
      [] [] 0 (by decide) (by decide)
    simp only [List.cons_append, List.nil_append] at h
    rw [h]
    simp [raiseGo, emitNodes, netMove, netAdj]
  · have h := optimizer_coalesces_runs.2.2.2.1 [.Increment] [.DecrementPointer] [] [] 0 0
      (by decide) (by decide) (List.cons_ne_nil _ _) (by decide)
    simp only [List.cons_append, List.nil_append, List.append_nil] at h
    rw [h]
    simp [raiseGo, emitNodes, netMove, netAdj]
  · have h := optimizer_coalesces_runs.2.2.2.2.1 [.IncrementPointer, .IncrementPointer]
      [.Increment] (by decide) (by decide)
    simp only [List.cons_append, List.nil_append] at h
    rw [h]
    simp [emitNodes, netMove, netAdj]


/-- Core simulation for C2: a completed reference run is reproduced, state
for state, by the spec semantics of the optimizer's output, with the two
accumulators still pending.  `sO` is the optimized-side state, trailing
the reference state `s` by the un-flushed cell delta `d` at the cell the
scan is parked on, and the un-flushed displacement `dp` (`p + dp` is the
reference pointer). -/
theorem raise_sim {f : Nat} :
    ∀ {l : List Instruction} {s : S} {q : Nat} {s' : S} {q' : Nat},
      run f l s q = some (s', q') →
      ∀ {sO : S} {p dp d : Int},
        BytesS sO → p + dp = (q : Int) → s = applyAdj sO q d →
        (d ≠ 0 → q < sO.tape.length) →
        ∃ (nodes : List BigInsn) (dp' d' : Int) (sO' : S) (p' : Int) (g : Nat),
          raiseGo l [] dp d = some (nodes, dp', d') ∧
          bigRun g nodes sO p = some (sO', p') ∧
          BytesS sO' ∧ p' + dp' = (q' : Int) ∧ s' = applyAdj sO' q' d' ∧
          (d' ≠ 0 → q' < sO'.tape.length) := by
  induction f using Nat.strong_induction_on with
  | _ f IH =>
    match f with
    | 0 =>
        intro l s q s' q' h
        simp [run] at h
    | f + 1 =>
      intro l s q s' q' h sO p dp d hB hpq hrel hbound
      have hBs : BytesS s := hrel ▸ BytesS_applyAdj hB q d
      cases l with
      | nil =>
          simp only [run, Option.some_inj, Prod.mk.injEq] at h
          obtain ⟨rfl, rfl⟩ := h
          exact ⟨[], dp, d, sO, p, 1, by simp [raiseGo], by simp [bigRun], hB, hpq, hrel,
            hbound⟩
      | cons i rest =>
        cases i with
        | IncrementPointer =>
            simp only [run] at h
            by_cases hd : d = 0
            · subst hd
              obtain ⟨nodes, dp', d', sO', p', g, h1, h2, h3, h4, h5, h6⟩ :=
                IH f (by omega) h hB
                  (show p + (dp + 1) = ((q + 1 : Nat) : Int) by push_cast; omega)
                  (by rw [applyAdj_zero] at hrel ⊢; exact hrel) (by simp)
              refine ⟨nodes, dp', d', sO', p', g, ?_, h2, h3, h4, h5, h6⟩
              simp only [raiseGo, maybe_emit_of_zero]
              exact h1
            · obtain ⟨nodes1, dp', d', sO', p', g1, h1, h2, h3, h4, h5, h6⟩ :=
                IH f (by omega) h hBs
                  (show ((q : Nat) : Int) + (0 + 1) = ((q + 1 : Nat) : Int) by push_cast; omega)
                  (applyAdj_zero s (q + 1)).symm (by simp)
              have hflush : bigRun 3 (emitNodes dp d) sO p = some (s, (q : Int)) := by
                rw [hrel]
                exact bigRun_emitNodes hpq hbound
              refine ⟨emitNodes dp d ++ nodes1, dp', d', sO', p', 3 + g1, ?_,
                bigRun_append hflush h2, h3, h4, h5, h6⟩
              simp only [raiseGo, maybe_emit_of_ne _ _ hd]
              rw [raiseGo_acc, h1]
              simp
        | DecrementPointer =>
            simp only [run] at h
            split at h
            · exact absurd h (by simp)
            · rename_i hq0
              by_cases hd : d = 0
              · subst hd
                obtain ⟨nodes, dp', d', sO', p', g, h1, h2, h3, h4, h5, h6⟩ :=
                  IH f (by omega) h hB
                    (show p + (dp - 1) = ((q - 1 : Nat) : Int) by omega)
                    (by rw [applyAdj_zero] at hrel ⊢; exact hrel) (by simp)
                refine ⟨nodes, dp', d', sO', p', g, ?_, h2, h3, h4, h5, h6⟩
                simp only [raiseGo, maybe_emit_of_zero]
                exact h1
              · obtain ⟨nodes1, dp', d', sO', p', g1, h1, h2, h3, h4, h5, h6⟩ :=
                  IH f (by omega) h hBs
                    (show ((q : Nat) : Int) + (0 - 1) = ((q - 1 : Nat) : Int) by omega)
                    (applyAdj_zero s (q - 1)).symm (by simp)
                have hflush : bigRun 3 (emitNodes dp d) sO p = some (s, (q : Int)) := by
                  rw [hrel]
                  exact bigRun_emitNodes hpq hbound
                refine ⟨emitNodes dp d ++ nodes1, dp', d', sO', p', 3 + g1, ?_,
                  bigRun_append hflush h2, h3, h4, h5, h6⟩
                simp only [raiseGo, maybe_emit_of_ne _ _ hd]
                rw [raiseGo_acc, h1]
                simp
        | Increment =>
            simp only [run] at h
            cases hv : getCellN s q with
            | none => simp [hv] at h
            | some v =>
                simp only [hv, Option.some_bind] at h
                have hqO : q < sO.tape.length := by
                  have := getCellN_lt hv
                  rwa [hrel, applyAdj_tape_length] at this
                obtain ⟨w, hw⟩ := getCellN_of_lt hqO
                have hwlt : w < 256 := hB.1 w (getCellN_mem hw)
                have hstep : setCellN s q (adjByte v 1) = applyAdj sO q (d + 1) := by
                  rw [hrel]
                  exact applyAdj_step hw hwlt d 1 (hrel ▸ hv)
                obtain ⟨nodes, dp', d', sO', p', g, h1, h2, h3, h4, h5, h6⟩ :=
                  IH f (by omega) h hB hpq hstep (fun _ => hqO)
                refine ⟨nodes, dp', d', sO', p', g, ?_, h2, h3, h4, h5, h6⟩
                simp only [raiseGo]
                exact h1
        | Decrement =>
            simp only [run] at h
            cases hv : getCellN s q with
            | none => simp [hv] at h
            | some v =>
                simp only [hv, Option.some_bind] at h
                have hqO : q < sO.tape.length := by
                  have := getCellN_lt hv
                  rwa [hrel, applyAdj_tape_length] at this
                obtain ⟨w, hw⟩ := getCellN_of_lt hqO
                have hwlt : w < 256 := hB.1 w (getCellN_mem hw)
                have hstep : setCellN s q (adjByte v (-1)) = applyAdj sO q (d - 1) := by
                  rw [hrel, show d - 1 = d + (-1) from by ring]
                  exact applyAdj_step hw hwlt d (-1) (hrel ▸ hv)
                obtain ⟨nodes, dp', d', sO', p', g, h1, h2, h3, h4, h5, h6⟩ :=
                  IH f (by omega) h hB hpq hstep (fun _ => hqO)
                refine ⟨nodes, dp', d', sO', p', g, ?_, h2, h3, h4, h5, h6⟩
                simp only [raiseGo]
                exact h1
        | Write =>
            simp only [run] at h
            cases hv : getCellN s q with
            | none => simp [hv] at h
            | some v =>
                simp only [hv, Option.some_bind] at h
                obtain ⟨nodes1, dp', d', sO', p', g1, h1, h2, h3, h4, h5, h6⟩ :=
                  IH f (by omega) h
                    (show BytesS { s with out := s.out ++ [v] } from ⟨hBs.1, hBs.2⟩)
                    (show ((q : Nat) : Int) + 0 = ((q : Nat) : Int) by omega)
                    (applyAdj_zero _ q).symm (by simp)
                have hflush : bigRun 3 (emitNodes dp d) sO p = some (s, (q : Int)) := by
                  rw [hrel]
                  exact bigRun_emitNodes hpq hbound
                have hcell : getCellI s ((q : Nat) : Int) = some v := by
                  rw [getCellI_natCast]
                  exact hv
                have hwr : bigRun 2 [BigInsn.Write] s ((q : Nat) : Int) =
                    some ({ s with out := s.out ++ [v] }, ((q : Nat) : Int)) := by
                  simp [bigRun, hcell]
                refine ⟨emitNodes dp d ++ [BigInsn.Write] ++ nodes1, dp', d', sO', p',
                  3 + 2 + g1, ?_, ?_, h3, h4, h5, h6⟩
                · simp only [raiseGo, emit_eq]
                  rw [raiseGo_acc, h1]
                  simp
                · exact bigRun_append (bigRun_append hflush hwr) h2
        | Read =>
            cases hi : s.inp with
            | nil => simp [run, hi] at h
            | cons b bs =>
                simp only [run, hi] at h
                cases hv : getCellN s q with
                | none => simp [hv] at h
                | some v =>
                    simp only [hv, Option.some_bind] at h
                    have hblt : b < 256 := hBs.2 b (by rw [hi]; exact List.mem_cons_self ..)
                    have hBmid : BytesS { s with inp := bs } :=
                      ⟨hBs.1, fun x hx => hBs.2 x (by rw [hi]; exact List.mem_cons_of_mem b hx)⟩
                    obtain ⟨nodes1, dp', d', sO', p', g1, h1, h2, h3, h4, h5, h6⟩ :=
                      IH f (by omega) h (BytesS_setCellN hBmid hblt q)
                        (show ((q : Nat) : Int) + 0 = ((q : Nat) : Int) by omega)
                        (applyAdj_zero _ q).symm (by simp)
                    have hflush : bigRun 3 (emitNodes dp d) sO p = some (s, (q : Int)) := by
                      rw [hrel]
                      exact bigRun_emitNodes hpq hbound
                    have hcell : getCellI s ((q : Nat) : Int) = some v := by
                      rw [getCellI_natCast]
                      exact hv
                    have hrd : bigRun 2 [BigInsn.Read] s ((q : Nat) : Int) =
                        some (setCellN { s with inp := bs } q b, ((q : Nat) : Int)) := by
                      simp [bigRun, hi, hcell, setCellI_natCast]
                    refine ⟨emitNodes dp d ++ [BigInsn.Read] ++ nodes1, dp', d', sO', p',
                      3 + 2 + g1, ?_, ?_, h3, h4, h5, h6⟩
                    · simp only [raiseGo, emit_eq]
                      rw [raiseGo_acc, h1]
                      simp
                    · exact bigRun_append (bigRun_append hflush hrd) h2
        | Loop body =>
            simp only [run] at h
            cases hv : getCellN s q with
            | none => simp [hv] at h
            | some v =>
                simp only [hv, Option.some_bind] at h
                have hflush : bigRun 3 (emitNodes dp d) sO p = some (s, (q : Int)) := by
                  rw [hrel]
                  exact bigRun_emitNodes hpq hbound
                have hcell : getCellI s ((q : Nat) : Int) = some v := by
                  rw [getCellI_natCast]
                  exact hv
                by_cases h0 : v = 0
                · subst h0
                  rw [if_pos rfl] at h
                  obtain ⟨nodes1, dp', d', sO', p', g1, h1, h2, h3, h4, h5, h6⟩ :=
                    IH f (by omega) h hBs
                      (show ((q : Nat) : Int) + 0 = ((q : Nat) : Int) by omega)
                      (applyAdj_zero s q).symm (by simp)
                  have hS := raiseGo_isSome body [] 0 0
                  cases hbody : raiseGo body [] 0 0 with
                  | none =>
                      rw [hbody] at hS
                      simp at hS
                  | some rb =>
                      obtain ⟨bc, bdp, bd⟩ := rb
                      have hskip : bigRun 2 [BigInsn.Loop (bc ++ emitNodes bdp bd)] s
                          ((q : Nat) : Int) = some (s, ((q : Nat) : Int)) := by
                        simp [bigRun, hcell]
                      refine ⟨emitNodes dp d ++ [BigInsn.Loop (bc ++ emitNodes bdp bd)] ++
                        nodes1, dp', d', sO', p', 3 + 2 + g1, ?_, ?_, h3, h4, h5, h6⟩
                      · rw [raiseGo_loop_eq hbody]
                        rw [raiseGo_acc, h1]
                        simp
                      · exact bigRun_append (bigRun_append hflush hskip) h2
                · rw [if_neg h0] at h
                  cases hrb : run f body s q with
                  | none => simp [hrb] at h
                  | some r1 =>
                      obtain ⟨s2, q2⟩ := r1
                      simp only [hrb, Option.some_bind] at h
                      obtain ⟨bnodes, bdp2, bd2, sB, pB, gB, hb1, hb2, hb3, hb4, hb5, hb6⟩ :=
                        IH f (by omega) hrb hBs
                          (show ((q : Nat) : Int) + 0 = ((q : Nat) : Int) by omega)
                          (applyAdj_zero s q).symm (by simp)
                      have hflushB : bigRun 3 (emitNodes bdp2 bd2) sB pB =
                          some (s2, ((q2 : Nat) : Int)) := by
                        rw [hb5]
                        exact bigRun_emitNodes hb4 hb6
                      have hbodyrun : bigRun (gB + 3) (bnodes ++ emitNodes bdp2 bd2) s
                          ((q : Nat) : Int) = some (s2, ((q2 : Nat) : Int)) :=
                        bigRun_append hb2 hflushB
                      have hBs2 : BytesS s2 := hb5 ▸ BytesS_applyAdj hb3 q2 bd2
                      obtain ⟨nodes2, dp', d', sO', p', g2, h1, h2, h3, h4, h5, h6⟩ :=
                        IH f (by omega) h hBs2
                          (show ((q2 : Nat) : Int) + 0 = ((q2 : Nat) : Int) by omega)
                          (applyAdj_zero s2 q2).symm (by simp)
                      rw [raiseGo_loop_eq hb1] at h1
                      rw [show emitNodes 0 0 = [] from by simp [emitNodes]] at h1
                      simp only [List.nil_append] at h1
                      rw [raiseGo_acc] at h1
                      cases hr3 : raiseGo rest [] 0 0 with
                      | none =>
                          rw [hr3] at h1
                          simp at h1
                      | some r3 =>
                          obtain ⟨nodes3, dp3, d3⟩ := r3
                          rw [hr3] at h1
                          simp only [Option.map_some', Option.some_inj, Prod.mk.injEq] at h1
                          obtain ⟨heq, rfl, rfl⟩ := h1
                          subst heq
                          have hloop : bigRun ((gB + 3) + g2 + 1)
                              (.Loop (bnodes ++ emitNodes bdp2 bd2) :: nodes3) s
                              ((q : Nat) : Int) = some (sO', p') :=
                            bigRun_loop_step hcell h0 hbodyrun (by simpa using h2)
                          refine ⟨emitNodes dp d ++
                            ([BigInsn.Loop (bnodes ++ emitNodes bdp2 bd2)] ++ nodes3),
                            dp3, d3, sO', p', 3 + ((gB + 3) + g2 + 1), ?_, ?_, h3, h4, h5, h6⟩
                          · rw [raiseGo_loop_eq hb1]
                            rw [raiseGo_acc, hr3]
                            simp
                          · have := bigRun_append hflush hloop
                            simpa using this

/-- C2 (as stated, refuted): executing the optimizer's output under the
§4.4 semantics does not always produce byte-identical output to the
unoptimized tree.  On `.<>.` from cursor 0 the unoptimized execution
writes one byte and then aborts decrementing the pointer at 0 (the prefix
`.` alone shows the single byte 7 already emitted), while the optimizer
cancels the zero-net move run, yielding `[Write, Write]`, which completes
and emits the byte 7 twice. -/
theorem optimizer_changes_behavior_on_aborts :
    run 9 [.Write, .DecrementPointer, .IncrementPointer, .Write] ⟨[7], [], []⟩ 0 = none ∧
    run 9 [.Write] ⟨[7], [], []⟩ 0 = some (⟨[7], [], [7]⟩, 0) ∧
    raise_abstraction [.Write, .DecrementPointer, .IncrementPointer, .Write] =
      some [.Write, .Write] ∧
    bigRun 9 [.Write, .Write] ⟨[7], [], []⟩ 0 = some (⟨[7], [], [7, 7]⟩, 0) := by
  refine ⟨rfl, rfl, ?_, rfl⟩
  simp [raise_abstraction, raiseGo, maybe_emit, emit]

/-- C2 (amended): for every instruction tree and every well-formed state
(8-bit cells and input bytes, as in the real machine), if the unoptimized
execution completes without runtime error, then `raise_abstraction`
succeeds and executing its output under the §4.4 Move/Adjust/Write/Read/
Loop semantics produces byte-identical output, identical consumed input,
identical final tape and the identical final cursor. -/
theorem raise_abstraction_preserves_runs {fuel : Nat} {program : List Instruction}
    {s s' : S} {q q' : Nat} (hB : BytesS s)
    (h : run fuel program s q = some (s', q')) :
    ∃ (code : List BigInsn) (g : Nat), raise_abstraction program = some code ∧
      bigRun g code s (q : Int) = some (s', (q' : Int)) := by
  obtain ⟨nodes, dp', d', sO', p', g, h1, h2, h3, h4, h5, h6⟩ :=
    raise_sim h hB (show (q : Int) + 0 = (q : Int) by omega) (applyAdj_zero s q).symm
      (by simp)
  refine ⟨nodes ++ emitNodes dp' d', g + 3, ?_, ?_⟩
  · unfold raise_abstraction
    rw [h1]
    simp [emit_eq]
  · have hflush : bigRun 3 (emitNodes dp' d') sO' p' =
        some (applyAdj sO' q' d', (q' : Int)) := bigRun_emitNodes h4 h6
    rw [← h5] at hflush
    exact bigRun_append h2 hflush

/-- The C2 equivalence at a concrete run: `>++.` is optimized to
`[Move 1, Adj 2, Write]`, and both executions write the byte 2 and end
with tape `[0, 2]` and cursor 1. -/
theorem raise_abstraction_preserves_runs_witness :
    ∃ (code : List BigInsn) (g : Nat),
      raise_abstraction [.IncrementPointer, .Increment, .Increment, .Write] = some code ∧
      bigRun g code ⟨[0, 0], [], []⟩ ((0 : Nat) : Int) = some (⟨[0, 2], [], [2]⟩, ((1 : Nat) : Int)) := by
  have h := raise_abstraction_preserves_runs (by constructor <;> decide)
    (show run 30 [.IncrementPointer, .Increment, .Increment, .Write] ⟨[0, 0], [], []⟩ 0 =
      some (⟨[0, 2], [], [2]⟩, 1) from rfl)
  exact h

/-! ### C3: the parser fails exactly on unbalanced brackets -/

theorem scans_append (l1 : List OpCode) :
    ∀ (l2 : List OpCode) (d : Nat),
      scans (l1 ++ l2) d = (scans l1 d).bind fun d1 => scans l2 d1 := by
  induction l1 with
  | nil => intro l2 d; simp [scans]
  | cons a t ih =>
    intro l2 d
    cases a with
    | LoopBegin => simp only [List.cons_append, scans]; exact ih ..
    | LoopEnd =>
        simp only [List.cons_append, scans]
        by_cases hd : d = 0
        · simp [hd]
        · rw [if_neg hd, if_neg hd]
          exact ih ..
    | IncrementPointer => simp only [List.cons_append, scans]; exact ih ..
    | DecrementPointer => simp only [List.cons_append, scans]; exact ih ..
    | Increment => simp only [List.cons_append, scans]; exact ih ..
    | Decrement => simp only [List.cons_append, scans]; exact ih ..
    | Write => simp only [List.cons_append, scans]; exact ih ..
    | Read => simp only [List.cons_append, scans]; exact ih ..

/-- The spec-side scan reports no error exactly when the remaining opcodes
are balanced from the current depth. -/
theorem specBracketCheck_none_iff (ops : List OpCode) (i stack start : Nat) :
    specBracketCheck ops i stack start = none ↔ scans (ops.drop i) stack = some 0 := by
  rw [specBracketCheck.eq_def]
  by_cases h : i < ops.length
  · rw [dif_pos h, List.drop_eq_getElem_cons h]
    have hrec := fun stack' start' => specBracketCheck_none_iff ops (i + 1) stack' start'
    cases hop : ops[i] with
    | LoopBegin =>
        simp only [scans]
        exact hrec ..
    | LoopEnd =>
        by_cases hs : stack = 0
        · simp [hs, scans]
        · simp only [scans, if_neg hs]
          exact hrec ..
    | IncrementPointer => simp only [scans]; exact hrec ..
    | DecrementPointer => simp only [scans]; exact hrec ..
    | Increment => simp only [scans]; exact hrec ..
    | Decrement => simp only [scans]; exact hrec ..
    | Write => simp only [scans]; exact hrec ..
    | Read => simp only [scans]; exact hrec ..
  · rw [dif_neg h, List.drop_eq_nil_of_le (by omega)]
    by_cases hs : stack = 0 <;> simp [hs, scans]
termination_by ops.length - i
decreasing_by all_goals omega

theorem seg_snoc {ops : List OpCode} {start i : Nat} (h1 : start + 1 ≤ i)
    (h2 : i < ops.length) :
    (ops.drop (start + 1)).take (i + 1 - (start + 1)) =
      (ops.drop (start + 1)).take (i - (start + 1)) ++ [ops[i]] := by
  rw [show i + 1 - (start + 1) = (i - (start + 1)) + 1 from by omega, List.take_succ]
  congr 1
  rw [List.getElem?_drop, show start + 1 + (i - (start + 1)) = i from by omega,
    List.getElem?_eq_getElem h2]
  rfl

/-- The parser's scan errors exactly as the spec's error discipline
describes.  The invariant says: while inside an open depth-0 loop
(`stack ≠ 0`), the opcodes strictly between the opening bracket at
`start` and the current position form a prefix that never closes past its
opening and sits at relative depth `stack - 1`. -/
theorem parseGo_spec (ops : List OpCode) (i : Nat) (prog : List Instruction)
    (stack start : Nat)
    (hInv : stack ≠ 0 → start + 1 ≤ i ∧
      scans ((ops.drop (start + 1)).take (i - (start + 1))) 0 = some (stack - 1)) :
    errOf (parseGo ops i prog stack start) = specBracketCheck ops i stack start := by
  rw [parseGo.eq_def, specBracketCheck.eq_def]
  by_cases h : i < ops.length
  · rw [dif_pos h, dif_pos h]
    by_cases hs : stack = 0
    · subst hs
      rw [if_pos rfl]
      cases hop : ops[i] with
      | IncrementPointer =>
          dsimp only
          exact parseGo_spec ops (i + 1) _ 0 start (fun hc => absurd rfl hc)
      | DecrementPointer =>
          dsimp only
          exact parseGo_spec ops (i + 1) _ 0 start (fun hc => absurd rfl hc)
      | Increment =>
          dsimp only
          exact parseGo_spec ops (i + 1) _ 0 start (fun hc => absurd rfl hc)
      | Decrement =>
          dsimp only
          exact parseGo_spec ops (i + 1) _ 0 start (fun hc => absurd rfl hc)
      | Write =>
          dsimp only
          exact parseGo_spec ops (i + 1) _ 0 start (fun hc => absurd rfl hc)
      | Read =>
          dsimp only
          exact parseGo_spec ops (i + 1) _ 0 start (fun hc => absurd rfl hc)
      | LoopBegin =>
          dsimp only
          rw [if_pos rfl]
          refine parseGo_spec ops (i + 1) prog 1 i ?_
          intro _
          refine ⟨by omega, ?_⟩
          rw [show i + 1 - (i + 1) = 0 from by omega]
          simp [scans]
      | LoopEnd =>
          dsimp only
          rw [if_pos rfl]
          rfl
    · rw [if_neg hs]
      obtain ⟨hle, hscan⟩ := hInv hs
      cases hop : ops[i] with
      | LoopBegin =>
          dsimp only
          rw [if_neg hs]
          refine parseGo_spec ops (i + 1) prog (stack + 1) start ?_
          intro _
          refine ⟨by omega, ?_⟩
          rw [seg_snoc hle h, scans_append, hscan, hop]
          simp only [Option.some_bind, scans]
          congr 1
          omega
      | LoopEnd =>
          dsimp only
          rw [if_neg hs]
          by_cases h1 : stack = 1
          · subst h1
            rw [if_pos rfl]
            have hbal : specBracketCheck ((ops.drop (start + 1)).take (i - (start + 1))) 0 0 0 =
                none := by
              rw [specBracketCheck_none_iff]
              simpa using hscan
            have hsub := parseGo_spec ((ops.drop (start + 1)).take (i - (start + 1))) 0 [] 0 0
              (fun hc => absurd rfl hc)
            rw [hbal] at hsub
            cases hps : parseGo ((ops.drop (start + 1)).take (i - (start + 1))) 0 [] 0 0 with
            | error e =>
                rw [hps] at hsub
                simp [errOf] at hsub
            | ok body =>
                dsimp only
                exact parseGo_spec ops (i + 1) _ 0 start (fun hc => absurd rfl hc)
          · rw [if_neg h1]
            refine parseGo_spec ops (i + 1) prog (stack - 1) start ?_
            intro _
            refine ⟨by omega, ?_⟩
            rw [seg_snoc hle h, scans_append, hscan, hop]
            simp only [Option.some_bind, scans]
            rw [if_neg (by omega)]
      | IncrementPointer =>
          dsimp only
          refine parseGo_spec ops (i + 1) prog stack start ?_
          intro _
          refine ⟨by omega, ?_⟩
          rw [seg_snoc hle h, scans_append, hscan, hop]
          simp [scans]
      | DecrementPointer =>
          dsimp only
          refine parseGo_spec ops (i + 1) prog stack start ?_
          intro _
          refine ⟨by omega, ?_⟩
          rw [seg_snoc hle h, scans_append, hscan, hop]
          simp [scans]
      | Increment =>
          dsimp only
          refine parseGo_spec ops (i + 1) prog stack start ?_
          intro _
          refine ⟨by omega, ?_⟩
          rw [seg_snoc hle h, scans_append, hscan, hop]
          simp [scans]
      | Decrement =>
          dsimp only
          refine parseGo_spec ops (i + 1) prog stack start ?_
          intro _
          refine ⟨by omega, ?_⟩
          rw [seg_snoc hle h, scans_append, hscan, hop]
          simp [scans]
      | Write =>
          dsimp only
          refine parseGo_spec ops (i + 1) prog stack start ?_
          intro _
          refine ⟨by omega, ?_⟩
          rw [seg_snoc hle h, scans_append, hscan, hop]
          simp [scans]
      | Read =>
          dsimp only
          refine parseGo_spec ops (i + 1) prog stack start ?_
          intro _
          refine ⟨by omega, ?_⟩
          rw [seg_snoc hle h, scans_append, hscan, hop]
          simp [scans]
  · rw [dif_neg h, dif_neg h]
    by_cases hs : stack = 0 <;> simp [hs, errOf]
termination_by (ops.length, ops.length - i)
decreasing_by
  all_goals first
    | (apply Prod.Lex.right; omega)
    | (apply Prod.Lex.left; simp only [List.length_take, List.length_drop]; omega)

/-- C3: parsing fails exactly when the brackets are unbalanced, with
exactly the described errors — the parser's error is precisely what the
spec's error discipline computes (a loop-end at depth 0 gives
UnmatchedLoopEnd at that opcode's position; exhausting the opcodes at
positive depth gives UnmatchedLoopBegin at the outermost unclosed loop's
start), parsing succeeds iff the depth scan balances (so an error carries
no partial program, `Except` being exclusive), and in particular `]` alone
fails with UnmatchedLoopEnd at 0 and `[` alone with UnmatchedLoopBegin
at 0. -/
theorem parse_error_characterization :
    (∀ ops : List OpCode, errOf (parse ops) = specBracketCheck ops 0 0 0) ∧
    (∀ ops : List OpCode, (∃ prog, parse ops = .ok prog) ↔ scans ops 0 = some 0) ∧
    parse [OpCode.LoopEnd] = .error (.UnmatchedLoopEnd 0) ∧
    parse [OpCode.LoopBegin] = .error (.UnmatchedLoopBegin 0) := by
  have hp : ∀ ops : List OpCode, errOf (parse ops) = specBracketCheck ops 0 0 0 :=
    fun ops => parseGo_spec ops 0 [] 0 0 (fun hc => absurd rfl hc)
  refine ⟨hp, ?_, ?_, ?_⟩
  · intro ops
    have h1 := hp ops
    have h2 := specBracketCheck_none_iff ops 0 0 0
    rw [List.drop_zero] at h2
    constructor
    · rintro ⟨prog, hpk⟩
      rw [hpk] at h1
      simp only [errOf] at h1
      exact h2.mp h1.symm
    · intro hsc
      rw [h2.mpr hsc] at h1
      cases hpk : parse ops with
      | error e =>
          rw [hpk] at h1
          simp [errOf] at h1
      | ok prog => exact ⟨prog, rfl⟩
  · simp [parse, parseGo]
  · simp [parse, parseGo]
